import Mathlib

/-!
# Verification of the unsmry_reader binary decoder

A shallow embedding of `src/unsmry_reader.py` (class `SummaryData`), an Eclipse
summary-file reader.  File contents are modelled as lists of byte values
(`Nat`, each < 256 in well-formed inputs); the Python file object is a
positioned cursor.  Python values that flow through the decoder are modelled by
`PyVal`; Python exceptions by `Err`.  Floats are represented by their IEEE bit
patterns (the decoders only ever move bytes into bit patterns; no float
arithmetic happens in the decoding paths under study).  `struct.unpack`
returns a tuple, which is modelled explicitly (see `read_doubles`).

Loops are modelled with explicit fuel; the wrappers supply fuel
`remaining-bytes + 1`, which dominates the iteration count of every
terminating run (each loop iteration of the source consumes at least one byte
unless the cursor is at end-of-file, in which case the Python loop no longer
makes progress).  A `none` result models non-termination.

Known modelling simplifications, none load-bearing for the claims below:
text decoding is byte-transparent (Python's `bytes.decode('utf-8', 'strict')`
can raise on non-ASCII bytes; all inputs considered here are ASCII), and
`int()` parsing accepts the decimal forms `String.toInt?` accepts.
-/

namespace UnsmryReader

/-- A positioned byte cursor over one open file: the Python file object.
`pos` advances on reads and moves by relative seeks. -/
structure Cursor where
  data : List Nat
  pos : Nat
deriving DecidableEq

/-- Bytes still ahead of the cursor. -/
def Cursor.cur (c : Cursor) : List Nat := c.data.drop c.pos

/-- `f.read n`: returns up to `n` bytes and advances by the number of bytes
actually read (fewer than `n` at end-of-file, exactly as in Python). -/
def Cursor.readB (c : Cursor) (n : Nat) : List Nat × Cursor :=
  let bs := c.cur.take n
  (bs, ⟨c.data, c.pos + bs.length⟩)

/-- Advance the position by `n` (helper used to state lemmas). -/
def Cursor.adv (c : Cursor) (n : Nat) : Cursor := ⟨c.data, c.pos + n⟩

/-- `f.seek(k, 1)`: relative seek; the Python calls modelled here never
target a negative absolute position, so clamping at 0 is unobservable. -/
def Cursor.seekR (c : Cursor) (k : Int) : Cursor := ⟨c.data, ((c.pos : Int) + k).toNat⟩

/-- `int.from_bytes(bs, byteorder='big')`. -/
def beNat (bs : List Nat) : Nat := bs.foldl (fun a b => 256 * a + b) 0

/-- The 64-bit pattern of `struct.unpack('<d', bs)`: bytes in little-endian
order. -/
def leNat (bs : List Nat) : Nat := beNat bs.reverse

/-- `bs.decode('utf-8')` for the ASCII inputs of interest (byte-transparent). -/
def l2S (bs : List Nat) : String := String.mk (bs.map Char.ofNat)

/-- Python `str.strip()`: remove leading and trailing whitespace. -/
def pyStrip (s : String) : String :=
  String.mk (((s.data.dropWhile Char.isWhitespace).reverse.dropWhile Char.isWhitespace).reverse)

/-- A Python value as it flows through the reader.  `real`/`doubTup` carry
IEEE bit patterns; `doubTup` is the un-indexed tuple `struct.unpack` returns
(see `read_doubles`).  Cross-constructor equality is `False`, exactly like
Python equality between, say, `str` and `int` — which is what makes the
`S`-keyword lookup defect observable (claim C8). -/
inductive PyVal where
  | int (n : Int)
  | real (bits : Nat)
  | doubTup (t : List Nat)
  | str (s : String)
  | bool (b : Bool)
deriving DecidableEq

/-- Python exceptions raised by the reader, by kind. -/
inductive Err where
  | truncated
  | frameMismatch (l l2 : Nat)
  | unexpectedSection (s : String)
  | unknownRecordType (s : String)
  | unsupportedKeyword (s : String)
  | vectorNotFound (ident : String) (c1 c2 : Int)
  | unexpectedKeyword (s : String)
  | valueError
  | typeError
  | indexError
  | nameError (s : String)
  | attributeError (s : String)
deriving DecidableEq

/-! ## Primitive codec (`__read_strings` … `__read_logis`)

Each Python reader loops `for i in range(0, count // length)`, reading
`length` bytes per iteration.  `int.from_bytes` accepts short (even empty)
reads; `struct.unpack` raises `struct.error` (modelled `Err.truncated`) unless
exactly 4 (resp. 8) bytes were read.  Python's default `count` (4 or 8) is
passed explicitly at every call site of this model. -/

def readStringsGo : Nat → Cursor → List String × Cursor
  | 0, c => ([], c)
  | n + 1, c =>
    let p := c.readB 8
    let q := readStringsGo n p.2
    (pyStrip (l2S p.1) :: q.1, q.2)

/-- `__read_strings(f, count)`: 8-byte text tokens, stripped (both ends, as
Python `str.strip()`). -/
def read_strings (c : Cursor) (count : Nat) : List String × Cursor :=
  readStringsGo (count / 8) c

def readStringsShortGo : Nat → Cursor → List String × Cursor
  | 0, c => ([], c)
  | n + 1, c =>
    let p := c.readB 4
    let q := readStringsShortGo n p.2
    (l2S p.1 :: q.1, q.2)

/-- `__read_strings_short(f, count)`: 4-byte text tokens, not stripped. -/
def read_strings_short (c : Cursor) (count : Nat) : List String × Cursor :=
  readStringsShortGo (count / 4) c

def readIntegersGo : Nat → Cursor → List Nat × Cursor
  | 0, c => ([], c)
  | n + 1, c =>
    let p := c.readB 4
    let q := readIntegersGo n p.2
    (beNat p.1 :: q.1, q.2)

/-- `__read_integers(f, count)`: big-endian 32-bit, unsigned interpretation.
Note it does not fail on a short read: `int.from_bytes` of the bytes that were
actually read (possibly none) is appended. -/
def read_integers (c : Cursor) (count : Nat) : List Nat × Cursor :=
  readIntegersGo (count / 4) c

def readLogisGo : Nat → Cursor → List Bool × Cursor
  | 0, c => ([], c)
  | n + 1, c =>
    let p := c.readB 4
    let q := readLogisGo n p.2
    ((beNat p.1 > 0) :: q.1, q.2)

/-- `__read_logis(f, count)`: 32-bit big-endian, true iff > 0.  Like
`read_integers` it does not fail on a short read. -/
def read_logis (c : Cursor) (count : Nat) : List Bool × Cursor :=
  readLogisGo (count / 4) c

def readRealsGo : Nat → Cursor → Except Err (List Nat × Cursor)
  | 0, c => .ok ([], c)
  | n + 1, c =>
    let p := c.readB 4
    if p.1.length = 4 then
      match readRealsGo n p.2 with
      | .ok q => .ok (beNat p.1 :: q.1, q.2)
      | .error e => .error e
    else .error .truncated

/-- `__read_reals(f, count)`: `struct.unpack('>f', ...)[0]` per element — a
scalar big-endian 32-bit pattern; `struct.error` on a short read. -/
def read_reals (c : Cursor) (count : Nat) : Except Err (List Nat × Cursor) :=
  readRealsGo (count / 4) c

def readDoublesGo : Nat → Cursor → Except Err (List (List Nat) × Cursor)
  | 0, c => .ok ([], c)
  | n + 1, c =>
    let p := c.readB 8
    if p.1.length = 8 then
      match readDoublesGo n p.2 with
      | .ok q => .ok ([leNat p.1] :: q.1, q.2)
      | .error e => .error e
    else .error .truncated

/-- `__read_doubles(f, count)`: the source appends `struct.unpack('<d', ...)`
itself — the whole 1-tuple, not its `[0]` element — so each decoded element is
a singleton tuple `[bits]` of the little-endian 64-bit pattern (claim C4). -/
def read_doubles (c : Cursor) (count : Nat) : Except Err (List (List Nat) × Cursor) :=
  readDoublesGo (count / 8) c

/-! ## Block framing and section readers -/

/-- `__read_block_header`: one frame (leading 32-bit length, 8-byte name,
32-bit count, 4-byte type tag, trailing 32-bit length; the two lengths must
match).  At end-of-file every read returns no bytes, so the result is
`("", 0, "")` — the empty name is the callers' end-of-stream signal. -/
def read_block_header (c : Cursor) : Except Err ((String × Nat × String) × Cursor) :=
  let p1 := read_integers c 4
  let block_length := p1.1.headD 0
  let p2 := read_strings p1.2 8
  let section_name := p2.1.headD ""
  let p3 := read_integers p2.2 4
  let num_records := p3.1.headD 0
  let p4 := read_strings_short p3.2 4
  let record_type := p4.1.headD ""
  let p5 := read_integers p4.2 4
  let end_block_length := p5.1.headD 0
  if block_length ≠ end_block_length then
    .error (.frameMismatch block_length end_block_length)
  else
    .ok ((section_name, num_records, record_type), p5.2)

/-- The type dispatch shared by `__read_record` and `__read_record_on_demand`
(the five `record_type` branches, in source order; an unrecognised tag
raises). -/
def readBlock (rt : String) (c : Cursor) (count : Nat) : Except Err (List PyVal × Cursor) :=
  if rt = "INTE" then
    let p := read_integers c count
    .ok (p.1.map (fun n => .int (Int.ofNat n)), p.2)
  else if rt = "REAL" then
    match read_reals c count with
    | .ok p => .ok (p.1.map .real, p.2)
    | .error e => .error e
  else if rt = "DOUB" then
    match read_doubles c count with
    | .ok p => .ok (p.1.map .doubTup, p.2)
    | .error e => .error e
  else if rt = "CHAR" then
    let p := read_strings c count
    .ok (p.1.map .str, p.2)
  else if rt = "LOGI" then
    let p := read_logis c count
    .ok (p.1.map .bool, p.2)
  else .error (.unknownRecordType rt)

/-- The `while i <= num_records` loop of `__read_record`: read a framed block,
decode all of it, check the trailing length, advance `i` by the number of
decoded elements. -/
def readRecordGo : Nat → Cursor → Nat → Nat → String → List PyVal →
    Option (Except Err (List PyVal × Cursor))
  | 0, _, _, _, _, _ => none
  | fuel + 1, c, i, num_records, rt, acc =>
    if i ≤ num_records then
      let p := read_integers c 4
      let block_length := p.1.headD 0
      match readBlock rt p.2 block_length with
      | .error e => some (.error e)
      | .ok (block, c2) =>
        let q := read_integers c2 4
        let end_block_length := q.1.headD 0
        if block_length ≠ end_block_length then
          some (.error (.frameMismatch block_length end_block_length))
        else
          readRecordGo fuel q.2 (i + block.length) num_records rt (acc ++ block)
    else some (.ok (acc, c))

/-- `__read_record(f, num_records, record_type)`.  `none` models a
non-terminating run (e.g. zero-length blocks at end-of-file, claim C10). -/
def read_record (c : Cursor) (num_records : Nat) (rt : String) :
    Option (Except Err (List PyVal × Cursor)) :=
  readRecordGo (c.cur.length + 1) c 1 num_records rt []

/-- `4` for `INTE`/`REAL`/`LOGI` (and anything unrecognised), `8` for
`DOUB`/`CHAR` — `if record_type in ['DOUB', 'CHAR']`. -/
def typeLength (rt : String) : Nat := if rt = "DOUB" ∨ rt = "CHAR" then 8 else 4

/-- The `while` loop of `__read_record_on_demand`.  The last component of the
result counts how many times the element-decode branch ran (the
`f.seek(skip_num, 1); result = self.__read_...(f); f.seek(..., 1)` arm) —
pure instrumentation, it does not alter the semantics.  Note the skip
condition is `target > i + capacity`, not `≥`: at `target = i + capacity` the
decode arm runs even though the block's elements occupy positions
`[i, i + capacity)` (claim C6). -/
def rrodGo : Nat → Cursor → Nat → Nat → Nat → String → List PyVal → Nat →
    Option (Except Err (List PyVal × Cursor × Nat))
  | 0, _, _, _, _, _, _, _ => none
  | fuel + 1, c, i, target, num_records, rt, result, decodes =>
    if i ≤ num_records then
      let p := read_integers c 4
      let block_length := p.1.headD 0
      let tl := typeLength rt
      let step : Except Err (List PyVal × Cursor × Nat) :=
        if target > i + block_length / tl ∨ target < i then
          .ok (result, p.2.seekR (block_length : Int), decodes)
        else
          let skip_num := (target - i) * tl
          match readBlock rt (p.2.seekR (skip_num : Int)) tl with
          | .error e => .error e
          | .ok (vals, c2) =>
            .ok (vals, c2.seekR ((block_length : Int) - skip_num - tl), decodes + 1)
      match step with
      | .error e => some (.error e)
      | .ok (result2, c2, decodes2) =>
        let q := read_integers c2 4
        let end_block_length := q.1.headD 0
        if block_length ≠ end_block_length then
          some (.error (.frameMismatch block_length end_block_length))
        else
          rrodGo fuel q.2 (i + block_length / tl) target num_records rt result2 decodes2
    else some (.ok (result, c, decodes))

/-- `__read_record_on_demand(f, read_index, num_records, record_type)`:
`target = read_index + 1`; blocks are skipped with relative seeks, and on the
decode arm a single element is read after seeking `(target - i) * type_length`
bytes into the payload. -/
def read_record_on_demand (c : Cursor) (read_index num_records : Nat) (rt : String) :
    Option (Except Err (List PyVal × Cursor × Nat)) :=
  rrodGo (c.cur.length + 1) c 1 (read_index + 1) num_records rt [] 0

/-! ## Whole-file scans -/

/-- The `while True` loop of `__read_unsmry`: per section, dispatch on the
name; `SEQHDR`/`MINISTEP`/`PARAMS` sections are fully decoded and appended to
their lists; an empty name breaks; anything else raises. -/
def readUnsmryGo : Nat → Cursor → List (List PyVal) → List (List PyVal) → List (List PyVal) →
    Option (Except Err (List (List PyVal) × List (List PyVal) × List (List PyVal)))
  | 0, _, _, _, _ => none
  | fuel + 1, c, seqhdr, ministep, params =>
    match read_block_header c with
    | .error e => some (.error e)
    | .ok ((section_name, num_records, record_type), c2) =>
      if section_name = "SEQHDR" then
        match read_record c2 num_records record_type with
        | none => none
        | some (.error e) => some (.error e)
        | some (.ok (vals, c3)) => readUnsmryGo fuel c3 (seqhdr ++ [vals]) ministep params
      else if section_name = "MINISTEP" then
        match read_record c2 num_records record_type with
        | none => none
        | some (.error e) => some (.error e)
        | some (.ok (vals, c3)) => readUnsmryGo fuel c3 seqhdr (ministep ++ [vals]) params
      else if section_name = "PARAMS" then
        match read_record c2 num_records record_type with
        | none => none
        | some (.error e) => some (.error e)
        | some (.ok (vals, c3)) => readUnsmryGo fuel c3 seqhdr ministep (params ++ [vals])
      else if section_name = "" then
        some (.ok (seqhdr, ministep, params))
      else some (.error (.unexpectedSection section_name))

/-- `__read_unsmry`: materialise the whole data file (eager mode).  Returns
the `seqhdr`, `ministep` and `params` section lists; `self.dfparams` is the
`params` component (one Row per params section, in file order). -/
def read_unsmry (data : List Nat) :
    Option (Except Err (List (List PyVal) × List (List PyVal) × List (List PyVal))) :=
  readUnsmryGo (data.length + 1) ⟨data, 0⟩ [] [] []

/-- The on-demand scan inside `vector` (the `else` arm): re-open the data
file; skip `SEQHDR`/`MINISTEP` sections with `read_record_on_demand(f, 9999,
...)`, collect `read_record_on_demand(f, i, ...)` of every `PARAMS` section. -/
def vectorScanGo : Nat → Cursor → Nat → List (List PyVal) →
    Option (Except Err (List (List PyVal)))
  | 0, _, _, _ => none
  | fuel + 1, c, i, param =>
    match read_block_header c with
    | .error e => some (.error e)
    | .ok ((section_name, num_records, record_type), c2) =>
      if section_name = "SEQHDR" then
        match read_record_on_demand c2 9999 num_records record_type with
        | none => none
        | some (.error e) => some (.error e)
        | some (.ok (_, c3, _)) => vectorScanGo fuel c3 i param
      else if section_name = "MINISTEP" then
        match read_record_on_demand c2 9999 num_records record_type with
        | none => none
        | some (.error e) => some (.error e)
        | some (.ok (_, c3, _)) => vectorScanGo fuel c3 i param
      else if section_name = "PARAMS" then
        match read_record_on_demand c2 i num_records record_type with
        | none => none
        | some (.error e) => some (.error e)
        | some (.ok (res, c3, _)) => vectorScanGo fuel c3 i (param ++ [res])
      else if section_name = "" then
        some (.ok param)
      else some (.error (.unexpectedSection section_name))

/-- On-demand extraction of column `i`: one (possibly empty) singleton row per
`PARAMS` section. -/
def vectorScan (data : List Nat) (i : Nat) : Option (Except Err (List (List PyVal))) :=
  vectorScanGo (data.length + 1) ⟨data, 0⟩ i []

/-! ## Vector locator (`vector`, lines 410-497) -/

/-- `list.index(x)` as a first-match position. -/
def pyIndex {α : Type} [DecidableEq α] : List α → α → Option Nat
  | [], _ => none
  | x :: xs, y => if x = y then some 0 else (pyIndex xs y).map (· + 1)

/-- `list.index(x)`, raising `ValueError` when absent. -/
def indexOrVE {α : Type} [DecidableEq α] (l : List α) (x : α) : Except Err Nat :=
  match pyIndex l x with
  | some i => .ok i
  | none => .error .valueError

def withSign (r : Except Err Nat) (s : Int) : Except Err (Nat × Int) :=
  match r with
  | .ok i => .ok (i, s)
  | .error e => .error e

/-- `zip(a, b, c)`. -/
def zip3 {α β γ : Type} : List α → List β → List γ → List (α × β × γ)
  | a :: as, b :: bs, c :: cs => (a, b, c) :: zip3 as bs cs
  | _, _, _ => []

/-- `identifier.split()`: split on whitespace runs, no empty pieces. -/
def pySplitGo : List Char → List Char → List String
  | [], acc => if acc.isEmpty then [] else [String.mk acc.reverse]
  | ch :: rest, acc =>
    if ch.isWhitespace then
      if acc.isEmpty then pySplitGo rest []
      else String.mk acc.reverse :: pySplitGo rest []
    else pySplitGo rest (ch :: acc)

def pySplit (s : String) : List String := pySplitGo s.data []

def digitsValGo : List Char → Nat → Option Nat
  | [], acc => some acc
  | ch :: rest, acc =>
    if ch.isDigit then digitsValGo rest (acc * 10 + (ch.toNat - 48)) else none

/-- `int(s)`: optional surrounding whitespace, optional sign, decimal digits;
anything else raises `ValueError`. -/
def pyInt (s : String) : Except Err Int :=
  match (pyStrip s).data with
  | [] => .error .valueError
  | '-' :: rest =>
    if rest.isEmpty then .error .valueError
    else match digitsValGo rest 0 with
      | some n => .ok (-(n : Int))
      | none => .error .valueError
  | '+' :: rest =>
    if rest.isEmpty then .error .valueError
    else match digitsValGo rest 0 with
      | some n => .ok ((n : Int))
      | none => .error .valueError
  | l =>
    match digitsValGo l 0 with
    | some n => .ok ((n : Int))
    | none => .error .valueError

/-- Coerce a stored `PyVal` into a Python integer for arithmetic; a non-int
raises `TypeError` (as Python arithmetic on it would). -/
def PyVal.asInt : PyVal → Except Err Int
  | .int n => .ok n
  | _ => .error .typeError

/-- The `special_keywords` list of `vector`. -/
def special_keywords : List String :=
  ["TIME", "YEARS", "DAY", "MONTH", "YEAR", "ELAPSED", "MAXDPR", "MAXDSO",
   "MAXDSG", "MAXDSW", "NEWTON", "NLINEARS", "STEPTYPE",
   "TCPU", "TCPUTS", "TCPUDAY", "TELAPTS", "TELAPDAY", "TIMESTEP"]

/-- The SMSPEC metadata `vector` consults: the section lists (elements are
`PyVal`s as decoded: strings for `KEYWORDS`/`WGNAMES`, ints for `NUMS`) and
the grid extents stored by `__process_smspec`. -/
structure SummaryMeta where
  keywords_section : List PyVal
  wgnames_section : List PyVal
  nums_section : List PyVal
  nx : PyVal
  ny : PyVal
deriving DecidableEq

/-- `B` branch: `"ix iy iz"`, cell index `(iz-1)*nx*ny + (iy-1)*nx + ix`. -/
def vectorIndexB (sd : SummaryMeta) (keyword identifier : String) : Except Err (Nat × Int) :=
  match pySplit identifier with
  | [block_ix, block_iy, block_iz] =>
    match pyInt block_iz, pyInt block_iy, pyInt block_ix, sd.nx.asInt, sd.ny.asInt with
    | .ok iz, .ok iy, .ok ix, .ok nx, .ok ny =>
      let block_index := (iz - 1) * nx * ny + (iy - 1) * nx + ix
      withSign (indexOrVE (sd.keywords_section.zip sd.nums_section)
        (.str keyword, .int block_index)) 1
    | .error e, _, _, _, _ => .error e
    | _, .error e, _, _, _ => .error e
    | _, _, .error e, _, _ => .error e
    | _, _, _, .error e, _ => .error e
    | _, _, _, _, .error e => .error e
  | _ => .error .valueError

/-- `C` branch: `"wellname conn#"`, with `int(connection_number)`. -/
def vectorIndexC (sd : SummaryMeta) (keyword identifier : String) : Except Err (Nat × Int) :=
  match pySplit identifier with
  | [well_name, connection_number] =>
    match pyInt connection_number with
    | .ok cn =>
      withSign (indexOrVE (zip3 sd.keywords_section sd.wgnames_section sd.nums_section)
        (.str keyword, .str well_name, .int cn)) 1
    | .error e => .error e
  | _ => .error .valueError

/-- The three `R` branches, in source order: `keyword[2] == 'F'`
(region-to-region flow, with the combined-code fallback and `sign = -1`),
then `keyword[0:2] == 'RC' and keyword[3] == 'M'` (which references the
undefined name `well_name`), then general region data.  `ctail` is the
keyword's character list after the leading `R`; indexing past its end raises
`IndexError` exactly where Python's `keyword[2]` / `keyword[3]` would. -/
def vectorIndexR (sd : SummaryMeta) (keyword identifier : String) (ctail : List Char) :
    Except Err (Nat × Int) :=
  match ctail.get? 1 with
  | none => .error .indexError
  | some c2 =>
    if c2 = 'F' then
      match pySplit identifier with
      | [region_num1, region_num2] =>
        match pyInt region_num1, pyInt region_num2 with
        | .ok r1, .ok r2 =>
          let combined1 := r1 + 32768 * (r2 + 10)
          let combined2 := r2 + 32768 * (r1 + 10)
          match pyIndex (sd.keywords_section.zip sd.nums_section) (.str keyword, .int combined1) with
          | some i => .ok (i, 1)
          | none =>
            match pyIndex (sd.keywords_section.zip sd.nums_section)
                (.str keyword, .int combined2) with
            | some i => .ok (i, -1)
            | none => .error (.vectorNotFound identifier combined1 combined2)
        | .error e, _ => .error e
        | _, .error e => .error e
      | _ => .error .valueError
    else if ctail.get? 0 = some 'C' then
      match ctail.get? 2 with
      | none => .error .indexError
      | some c3 =>
        if c3 = 'M' then
          match pySplit identifier with
          | [region_num, comp_num] =>
            match pyInt region_num, pyInt comp_num with
            | .ok _, .ok _ => .error (.nameError "well_name")
            | .error e, _ => .error e
            | _, .error e => .error e
          | _ => .error .valueError
        else
          withSign (indexOrVE (sd.keywords_section.zip sd.wgnames_section)
            (.str keyword, .str identifier)) 1
    else
      withSign (indexOrVE (sd.keywords_section.zip sd.wgnames_section)
        (.str keyword, .str identifier)) 1

/-- `S` branch: `"wellname segment#"`.  Note the source does NOT convert
`segment_number` with `int()` (unlike the `C` branch), so the probe's third
component is a string compared against the integer `NUMS` entries (claim C8). -/
def vectorIndexS (sd : SummaryMeta) (keyword identifier : String) : Except Err (Nat × Int) :=
  match pySplit identifier with
  | [well_name, segment_number] =>
    withSign (indexOrVE (zip3 sd.keywords_section sd.wgnames_section sd.nums_section)
      (.str keyword, .str well_name, .str segment_number)) 1
  | _ => .error .valueError

/-- The keyword dispatch of `vector` (lines 410-497): resolve `(keyword,
identifier)` to a column index and a sign multiplier.  Branches appear in
source order; `keyword[0]` on an empty keyword raises `IndexError`. -/
def vectorIndex (sd : SummaryMeta) (keyword identifier : String) : Except Err (Nat × Int) :=
  if keyword ∈ special_keywords then
    withSign (indexOrVE sd.keywords_section (.str keyword)) 1
  else
    match keyword.data with
    | [] => .error .indexError
    | c0 :: ctail =>
      if c0 = 'A' then
        withSign (indexOrVE (sd.keywords_section.zip sd.nums_section)
          (.str keyword, .str identifier)) 1
      else if c0 = 'B' then vectorIndexB sd keyword identifier
      else if c0 = 'C' then vectorIndexC sd keyword identifier
      else if c0 = 'E' then withSign (indexOrVE sd.keywords_section (.str keyword)) 1
      else if c0 = 'F' then withSign (indexOrVE sd.keywords_section (.str keyword)) 1
      else if c0 = 'G' then
        withSign (indexOrVE (sd.keywords_section.zip sd.wgnames_section)
          (.str keyword, .str identifier)) 1
      else if keyword.data.take 2 = ['L', 'B'] then .error (.unsupportedKeyword keyword)
      else if keyword.data.take 2 = ['L', 'C'] then .error (.unsupportedKeyword keyword)
      else if keyword.data.take 2 = ['L', 'W'] then .error (.unsupportedKeyword keyword)
      else if c0 = 'N' then
        withSign (indexOrVE (sd.keywords_section.zip sd.wgnames_section)
          (.str keyword, .str identifier)) 1
      else if c0 = 'P' then
        withSign (indexOrVE (sd.keywords_section.zip sd.wgnames_section)
          (.str keyword, .str identifier)) 1
      else if c0 = 'R' then vectorIndexR sd keyword identifier ctail
      else if c0 = 'S' then vectorIndexS sd keyword identifier
      else if c0 = 'W' then
        withSign (indexOrVE (sd.keywords_section.zip sd.wgnames_section)
          (.str keyword, .str identifier)) 1
      else .error (.unexpectedKeyword keyword)

/-- The dataset state `vector` runs against: metadata, the mode flag, the
materialised table (if `__read_unsmry` ran) and the data-file bytes. -/
structure SummaryData where
  meta : SummaryMeta
  on_demand : Bool
  dfparams : List (List PyVal)
  unsmryData : List Nat

/-- `vector(keyword, identifier)`: resolve the column, then either project
column `i` out of the materialised table (`self.dfparams[i]`) or scan the
data file on demand (`self.param[0]`).  Both pandas column selections are
modelled element-wise (`row.get? i` / `row.head?`; a missing entry is
`none`).  The sign multiplier is returned alongside the raw column — the
source multiplies the selected column by `sign_mult` before returning. -/
def vector (sd : SummaryData) (keyword identifier : String) :
    Option (Except Err (List (Option PyVal) × Int)) :=
  match vectorIndex sd.meta keyword identifier with
  | .error e => some (.error e)
  | .ok (i, sign_mult) =>
    if sd.on_demand = false then
      some (.ok (sd.dfparams.map (fun r => r.get? i), sign_mult))
    else
      match vectorScan sd.unsmryData i with
      | none => none
      | some (.error e) => some (.error e)
      | some (.ok rows) => some (.ok (rows.map (fun r => r.head?), sign_mult))

/-- The table `__read_unsmry` stores in `self.dfparams` (when it succeeds). -/
def dfparamsOf (data : List Nat) : List (List PyVal) :=
  match read_unsmry data with
  | some (.ok (_, _, params)) => params
  | _ => []

/-! ## Name derivation (`__process_smspec`, lines 193-206) -/

/-- The `for keyword, wgname in zip(...)` loop: collect well names (keyword
starts `'W'`, first appearance), group names (`'G'`), and all keywords, each
deduplicated on insertion.  `keyword[0]` raises `IndexError` on an empty
string and `TypeError` on a non-string. -/
def deriveNamesGo : List (PyVal × PyVal) → List PyVal → List PyVal → List PyVal →
    Except Err (List PyVal × List PyVal × List PyVal)
  | [], wn, gn, vn => .ok (wn, gn, vn)
  | (keyword, wgname) :: rest, wn, gn, vn =>
    match keyword with
    | .str s =>
      match s.data with
      | [] => .error .indexError
      | c :: _ =>
        let vn2 := if keyword ∉ vn then vn ++ [keyword] else vn
        if c = 'W' ∧ wgname ∉ wn then deriveNamesGo rest (wn ++ [wgname]) gn vn2
        else if c = 'G' ∧ wgname ∉ gn then deriveNamesGo rest wn (gn ++ [wgname]) vn2
        else deriveNamesGo rest wn gn vn2
    | _ => .error .typeError

/-- Lines 193-206 of `__process_smspec`: build `well_names`, `group_names`,
`vector_names` from the `KEYWORDS`/`WGNAMES` pairs, then remove empty
strings. -/
def derive_names (keywords wgnames : List PyVal) :
    Except Err (List PyVal × List PyVal × List PyVal) :=
  match deriveNamesGo (keywords.zip wgnames) [] [] [] with
  | .error e => .error e
  | .ok (wn, gn, vn) =>
    .ok (wn.filter (fun x => x ≠ .str ""), gn.filter (fun x => x ≠ .str ""),
         vn.filter (fun x => x ≠ .str ""))

/-! ## Construction (`__init__`, lines 37-65)

Python name mangling: inside `class SummaryData`, an attribute reference
`self.NAME` with `NAME` starting with two underscores (and not ending with
two) is rewritten to `_SummaryData` + `NAME`.  Line 65 reads
`self.____read_unsmry(...)` — four leading underscores — which mangles to
`_SummaryData____read_unsmry`; the method defined at line 347 is
`__read_unsmry`, i.e. `_SummaryData__read_unsmry`.  The lookup of the former
raises `AttributeError`. -/

/-- Python private-name mangling for attribute access inside a class body:
two or more leading underscores and at most one trailing underscore. -/
def pyMangle (cls nm : String) : String :=
  if nm.data.take 2 = ['_', '_'] ∧ ¬ nm.data.reverse.take 2 = ['_', '_'] then
    "_" ++ cls ++ nm
  else nm

/-- The method names defined in `class SummaryData` (source order). -/
def summaryDataMethodNames : List String :=
  ["__init__", "__read_smspec", "__process_smspec", "__read_block_header",
   "__read_record", "__read_record_on_demand", "__read_unsmry", "vector",
   "__read_strings", "__read_strings_short", "__read_integers",
   "__read_doubles", "__read_reals", "__read_logis"]

/-- The class attribute dictionary: each defined method under its mangled
name. -/
def summaryDataClassDict : List String :=
  summaryDataMethodNames.map (pyMangle "SummaryData")

/-- Run `__read_unsmry` and store its table (what line 65 intends to call). -/
def runReadUnsmry (sd : SummaryData) : Option (Except Err SummaryData) :=
  match read_unsmry sd.unsmryData with
  | none => none
  | some (.error e) => some (.error e)
  | some (.ok (_, _, params)) =>
    some (.ok { sd with dfparams := params, on_demand := false })

/-- Lines 61-65 of `__init__`, after the SMSPEC has been read and processed:
store the mode flag and, when `on_demand` is false, look up and call the
attribute written `self.____read_unsmry` — resolved through the class
dictionary under its mangled name. -/
def initAfterSpec (meta : SummaryMeta) (unsmryData : List Nat) (on_demand : Bool) :
    Option (Except Err SummaryData) :=
  let sd : SummaryData := ⟨meta, on_demand, [], unsmryData⟩
  if on_demand = false then
    if pyMangle "SummaryData" "____read_unsmry" ∈ summaryDataClassDict then
      runReadUnsmry sd
    else
      some (.error (.attributeError (pyMangle "SummaryData" "____read_unsmry")))
  else some (.ok sd)

/-! ## Abstract layout of a well-formed data file

To reason about both read strategies, a data file is presented abstractly as a
list of sections, each a name, a declared count, a type tag and a list of raw
block payloads; `encodeUnsmry` lays it out exactly as the on-disk format:
every payload framed by matching big-endian 32-bit length markers, every
section headed by one 16-byte framed header group. -/

/-- Big-endian 4-byte encoding of a 32-bit value. -/
def be4 (n : Nat) : List Nat :=
  [n / 16777216 % 256, n / 65536 % 256, n / 256 % 256, n % 256]

/-- One framed block: leading length, payload, trailing length. -/
def encodeBlock (b : List Nat) : List Nat := be4 b.length ++ b ++ be4 b.length

def encodeBlocks (bs : List (List Nat)) : List Nat := (bs.map encodeBlock).flatten

/-- The data-file section names. -/
inductive SecName where
  | seqhdr | ministep | params
deriving DecidableEq

def SecName.str : SecName → String
  | .seqhdr => "SEQHDR"
  | .ministep => "MINISTEP"
  | .params => "PARAMS"

/-- The 8-byte space-padded name field. -/
def SecName.bytes8 : SecName → List Nat
  | .seqhdr => [83, 69, 81, 72, 68, 82, 32, 32]
  | .ministep => [77, 73, 78, 73, 83, 84, 69, 80]
  | .params => [80, 65, 82, 65, 77, 83, 32, 32]

/-- ASCII bytes of a (4-character) type tag. -/
def strBytes (s : String) : List Nat := s.data.map Char.toNat

/-- One abstract section of the data file. -/
structure USec where
  name : SecName
  count : Nat
  rtype : String
  blocks : List (List Nat)

def encodeSec (s : USec) : List Nat :=
  be4 16 ++ s.name.bytes8 ++ be4 s.count ++ strBytes s.rtype ++ be4 16 ++
    encodeBlocks s.blocks

def encodeUnsmry (secs : List USec) : List Nat := (secs.map encodeSec).flatten

/-- Split a payload into element-width chunks (`n` = number of chunks). -/
def chunksGo (w : Nat) : Nat → List Nat → List (List Nat)
  | 0, _ => []
  | n + 1, l => l.take w :: chunksGo w n (l.drop w)

def chunks (w : Nat) (l : List Nat) : List (List Nat) := chunksGo w (l.length / w) l

/-- The value one element-width chunk decodes to, per type tag (mirrors the
per-type readers). -/
def decodeElem (rt : String) (bs : List Nat) : PyVal :=
  if rt = "INTE" then .int (beNat bs)
  else if rt = "REAL" then .real (beNat bs)
  else if rt = "DOUB" then .doubTup [leNat bs]
  else if rt = "CHAR" then .str (pyStrip (l2S bs))
  else .bool (beNat bs > 0)

/-- All elements of one block payload. -/
def decodeBlockP (rt : String) (b : List Nat) : List PyVal :=
  (chunks (typeLength rt) b).map (decodeElem rt)

/-- All elements of a section's payloads, in order. -/
def decodeBlocksList (rt : String) (bs : List (List Nat)) : List PyVal :=
  (bs.map (decodeBlockP rt)).flatten

/-- Total element capacity of a list of payloads at width `w`. -/
def sumCaps (w : Nat) (bs : List (List Nat)) : Nat :=
  (bs.map (fun b => b.length / w)).sum

/-- A well-formed payload: at least one element wide, element-aligned, frame
marker representable, genuine bytes. -/
def WFblock (w : Nat) (b : List Nat) : Prop :=
  w ≤ b.length ∧ w ∣ b.length ∧ b.length < 4294967296 ∧ ∀ x ∈ b, x < 256

/-- The numeric record types (`PARAMS`/`SEQHDR`/`MINISTEP` sections hold
numeric data; `CHAR` is excluded from the equivalence statements because
Python's strict UTF-8 decode can reject high marker bytes read in the
boundary case). -/
def numTypes : List String := ["INTE", "REAL", "DOUB", "LOGI"]

/-- A well-formed data-file section: numeric type, well-formed blocks whose
capacities sum to the declared count, representable count, and (for the
sections the on-demand scan skips with target 10000) a count small enough
that every block is genuinely skipped. -/
def WFsec (s : USec) : Prop :=
  s.rtype ∈ numTypes ∧
  (∀ b ∈ s.blocks, WFblock (typeLength s.rtype) b) ∧
  s.count = sumCaps (typeLength s.rtype) s.blocks ∧
  s.count < 4294967296 ∧
  (s.name ≠ .params → s.count ≤ 9998)

instance (w : Nat) (b : List Nat) : Decidable (WFblock w b) := by
  unfold WFblock; infer_instance

instance (s : USec) : Decidable (WFsec s) := by
  unfold WFsec; infer_instance

/-- The decoded rows of the sections named `n`, in file order. -/
def rowsOf (n : SecName) (secs : List USec) : List (List PyVal) :=
  (secs.filter (fun s => s.name = n)).map (fun s => decodeBlocksList s.rtype s.blocks)

def dedupFirstGo {α : Type} [DecidableEq α] : Nat → List α → List α
  | 0, _ => []
  | _, [] => []
  | n + 1, x :: xs => x :: dedupFirstGo n (xs.filter (fun y => y ≠ x))

/-- Keep the first occurrence of every value, in order of first appearance. -/
def dedupFirst {α : Type} [DecidableEq α] (l : List α) : List α :=
  dedupFirstGo l.length l

/-- Does a `PyVal` hold a string whose first character is `ch`? -/
def headIs (ch : Char) : PyVal → Bool
  | .str s => s.data.head? = some ch
  | _ => false

/-- A small concrete dataset (SMSPEC metadata) used to instantiate the claim
theorems: keywords `TIME`, `WOPR`; `WOPR` belongs to well `P1`. -/
def exampleMeta : SummaryMeta :=
  ⟨[.str "TIME", .str "WOPR"], [.str "", .str "P1"], [.int 0, .int 0], .int 1, .int 1⟩

/-- A small concrete data file: one `SEQHDR` section and one `PARAMS` section
(columns `TIME = 5`, `WOPR = 7`), both `INTE`. -/
def exampleSecs : List USec :=
  [⟨.seqhdr, 1, "INTE", [[0, 0, 0, 9]]⟩,
   ⟨.params, 2, "INTE", [[0, 0, 0, 5, 0, 0, 0, 7]]⟩]

/-! ## Cursor and codec lemmas -/

theorem Cursor.cur_mk (d : List Nat) (p : Nat) : Cursor.cur ⟨d, p⟩ = d.drop p := rfl

theorem Cursor.adv_zero (c : Cursor) : c.adv 0 = c := rfl

theorem Cursor.adv_adv (c : Cursor) (m n : Nat) : (c.adv m).adv n = c.adv (m + n) := by
  simp [Cursor.adv, Nat.add_assoc]

theorem Cursor.cur_adv (c : Cursor) (n : Nat) : (c.adv n).cur = c.cur.drop n := by
  simp [Cursor.adv, Cursor.cur, List.drop_drop, Nat.add_comm]

theorem Cursor.seekR_natCast (c : Cursor) (n : Nat) : c.seekR (n : Int) = c.adv n := by
  simp only [Cursor.seekR, Cursor.adv, Cursor.mk.injEq, true_and]
  omega

/-- `f.read n` when at least `n` bytes of a known prefix lie ahead. -/
theorem Cursor.readB_pre (c : Cursor) (n : Nat) (pre post : List Nat)
    (hcur : c.cur = pre ++ post) (hn : n ≤ pre.length) :
    c.readB n = (pre.take n, c.adv n) := by
  have ht : c.cur.take n = pre.take n := by
    rw [hcur, List.take_append_of_le_length hn]
  have hl : (pre.take n).length = n := by
    rw [List.length_take]; omega
  simp [Cursor.readB, Cursor.adv, ht, hl]

theorem be4_length (n : Nat) : (be4 n).length = 4 := rfl

theorem beNat_be4 (n : Nat) (h : n < 4294967296) : beNat (be4 n) = n := by
  simp only [beNat, be4, List.foldl]
  omega

theorem be4_bytes_lt (n : Nat) : ∀ x ∈ be4 n, x < 256 := by
  intro x hx
  simp only [be4, List.mem_cons, List.not_mem_nil, or_false] at hx
  rcases hx with rfl | rfl | rfl | rfl <;> omega

theorem chunksGo_length (w k : Nat) (l : List Nat) : (chunksGo w k l).length = k := by
  induction k generalizing l with
  | zero => rfl
  | succ k ih => simp [chunksGo, ih]

/-- Reading one 32-bit integer from a 4-byte prefix. -/
theorem readIntegersGo_encode (k : Nat) :
    ∀ (c : Cursor) (pre post : List Nat), c.cur = pre ++ post → pre.length = 4 * k →
    readIntegersGo k c = ((chunksGo 4 k pre).map beNat, c.adv (4 * k)) := by
  induction k with
  | zero =>
    intro c pre post hcur hlen
    have : pre = [] := List.eq_nil_of_length_eq_zero (by omega)
    simp [readIntegersGo, chunksGo, Cursor.adv_zero]
  | succ k ih =>
    intro c pre post hcur hlen
    have h4 : 4 ≤ pre.length := by omega
    have hr := Cursor.readB_pre c 4 pre post hcur h4
    have hcur2 : (c.adv 4).cur = pre.drop 4 ++ post := by
      rw [Cursor.cur_adv, hcur, List.drop_append_of_le_length h4]
    have hlen2 : (pre.drop 4).length = 4 * k := by
      rw [List.length_drop]; omega
    have hrec := ih (c.adv 4) (pre.drop 4) post hcur2 hlen2
    simp only [readIntegersGo, hr, hrec, chunksGo, List.map_cons]
    rw [Cursor.adv_adv, show 4 + 4 * k = 4 * (k + 1) by ring]

theorem readLogisGo_encode (k : Nat) :
    ∀ (c : Cursor) (pre post : List Nat), c.cur = pre ++ post → pre.length = 4 * k →
    readLogisGo k c = ((chunksGo 4 k pre).map (fun b => decide (beNat b > 0)), c.adv (4 * k)) := by
  induction k with
  | zero =>
    intro c pre post hcur hlen
    have : pre = [] := List.eq_nil_of_length_eq_zero (by omega)
    simp [readLogisGo, chunksGo, Cursor.adv_zero]
  | succ k ih =>
    intro c pre post hcur hlen
    have h4 : 4 ≤ pre.length := by omega
    have hr := Cursor.readB_pre c 4 pre post hcur h4
    have hcur2 : (c.adv 4).cur = pre.drop 4 ++ post := by
      rw [Cursor.cur_adv, hcur, List.drop_append_of_le_length h4]
    have hlen2 : (pre.drop 4).length = 4 * k := by
      rw [List.length_drop]; omega
    have hrec := ih (c.adv 4) (pre.drop 4) post hcur2 hlen2
    simp only [readLogisGo, hr, hrec, chunksGo, List.map_cons]
    rw [Cursor.adv_adv, show 4 + 4 * k = 4 * (k + 1) by ring]

theorem readRealsGo_encode (k : Nat) :
    ∀ (c : Cursor) (pre post : List Nat), c.cur = pre ++ post → pre.length = 4 * k →
    readRealsGo k c = .ok ((chunksGo 4 k pre).map beNat, c.adv (4 * k)) := by
  induction k with
  | zero =>
    intro c pre post hcur hlen
    have : pre = [] := List.eq_nil_of_length_eq_zero (by omega)
    simp [readRealsGo, chunksGo, Cursor.adv_zero]
  | succ k ih =>
    intro c pre post hcur hlen
    have h4 : 4 ≤ pre.length := by omega
    have hr := Cursor.readB_pre c 4 pre post hcur h4
    have hcur2 : (c.adv 4).cur = pre.drop 4 ++ post := by
      rw [Cursor.cur_adv, hcur, List.drop_append_of_le_length h4]
    have hlen2 : (pre.drop 4).length = 4 * k := by
      rw [List.length_drop]; omega
    have hrec := ih (c.adv 4) (pre.drop 4) post hcur2 hlen2
    have hlt : (pre.take 4).length = 4 := by rw [List.length_take]; omega
    simp only [readRealsGo, hr, hlt, if_pos rfl, hrec, chunksGo, List.map_cons]
    rw [Cursor.adv_adv, show 4 + 4 * k = 4 * (k + 1) by ring]
    simp

theorem readDoublesGo_encode (k : Nat) :
    ∀ (c : Cursor) (pre post : List Nat), c.cur = pre ++ post → pre.length = 8 * k →
    readDoublesGo k c = .ok ((chunksGo 8 k pre).map (fun b => [leNat b]), c.adv (8 * k)) := by
  induction k with
  | zero =>
    intro c pre post hcur hlen
    have : pre = [] := List.eq_nil_of_length_eq_zero (by omega)
    simp [readDoublesGo, chunksGo, Cursor.adv_zero]
  | succ k ih =>
    intro c pre post hcur hlen
    have h8 : 8 ≤ pre.length := by omega
    have hr := Cursor.readB_pre c 8 pre post hcur h8
    have hcur2 : (c.adv 8).cur = pre.drop 8 ++ post := by
      rw [Cursor.cur_adv, hcur, List.drop_append_of_le_length h8]
    have hlen2 : (pre.drop 8).length = 8 * k := by
      rw [List.length_drop]; omega
    have hrec := ih (c.adv 8) (pre.drop 8) post hcur2 hlen2
    have hlt : (pre.take 8).length = 8 := by rw [List.length_take]; omega
    simp only [readDoublesGo, hr, hlt, if_pos rfl, hrec, chunksGo, List.map_cons]
    rw [Cursor.adv_adv, show 8 + 8 * k = 8 * (k + 1) by ring]
    simp

theorem readStringsGo_encode (k : Nat) :
    ∀ (c : Cursor) (pre post : List Nat), c.cur = pre ++ post → pre.length = 8 * k →
    readStringsGo k c = ((chunksGo 8 k pre).map (fun b => pyStrip (l2S b)), c.adv (8 * k)) := by
  induction k with
  | zero =>
    intro c pre post hcur hlen
    have : pre = [] := List.eq_nil_of_length_eq_zero (by omega)
    simp [readStringsGo, chunksGo, Cursor.adv_zero]
  | succ k ih =>
    intro c pre post hcur hlen
    have h8 : 8 ≤ pre.length := by omega
    have hr := Cursor.readB_pre c 8 pre post hcur h8
    have hcur2 : (c.adv 8).cur = pre.drop 8 ++ post := by
      rw [Cursor.cur_adv, hcur, List.drop_append_of_le_length h8]
    have hlen2 : (pre.drop 8).length = 8 * k := by
      rw [List.length_drop]; omega
    have hrec := ih (c.adv 8) (pre.drop 8) post hcur2 hlen2
    simp only [readStringsGo, hr, hrec, chunksGo, List.map_cons]
    rw [Cursor.adv_adv, show 8 + 8 * k = 8 * (k + 1) by ring]

theorem readStringsShortGo_one (c : Cursor) (pre post : List Nat)
    (hcur : c.cur = pre ++ post) (hlen : pre.length = 4) :
    readStringsShortGo 1 c = ([l2S pre], c.adv 4) := by
  have hr := Cursor.readB_pre c 4 pre post hcur (by omega)
  have : pre.take 4 = pre := List.take_of_length_le (by omega)
  simp [readStringsShortGo, hr, this]

theorem drop_append_exact {α : Type} (l m : List α) (n : Nat) (h : l.length = n) :
    (l ++ m).drop n = m := by
  rw [List.drop_append_of_le_length (by omega), List.drop_eq_nil_of_le (by omega),
    List.nil_append]

theorem take_append_exact {α : Type} (l m : List α) (n : Nat) (h : l.length = n) :
    (l ++ m).take n = l := by
  rw [List.take_append_of_le_length (by omega), List.take_of_length_le (by omega)]

/-- One default-width `__read_integers` call on a known 4-byte prefix. -/
theorem read_integers_one (c : Cursor) (pre post : List Nat)
    (hcur : c.cur = pre ++ post) (hlen : pre.length = 4) :
    read_integers c 4 = ([beNat pre], c.adv 4) := by
  have h := readIntegersGo_encode 1 c pre post hcur (by omega)
  simpa [read_integers, chunksGo, List.take_of_length_le (show pre.length ≤ 4 by omega)] using h

/-- One `__read_strings` call (count 8) on a known 8-byte prefix. -/
theorem read_strings_one (c : Cursor) (pre post : List Nat)
    (hcur : c.cur = pre ++ post) (hlen : pre.length = 8) :
    read_strings c 8 = ([pyStrip (l2S pre)], c.adv 8) := by
  have h := readStringsGo_encode 1 c pre post hcur (by omega)
  simpa [read_strings, chunksGo, List.take_of_length_le (show pre.length ≤ 8 by omega)] using h

/-- One `__read_strings_short` call (count 4) on a known 4-byte prefix. -/
theorem read_strings_short_one (c : Cursor) (pre post : List Nat)
    (hcur : c.cur = pre ++ post) (hlen : pre.length = 4) :
    read_strings_short c 4 = ([l2S pre], c.adv 4) :=
  readStringsShortGo_one c pre post hcur hlen

set_option maxHeartbeats 1000000 in
/-- Reading the section-header frame: one leading marker, the three header
fields, one trailing marker; mismatching markers raise.  This is the complete
behaviour of `__read_block_header` on any stream with at least 24 bytes
ahead. -/
theorem read_block_header_frame (c : Cursor) (L cnt L2 : Nat) (name8 tag4 post : List Nat)
    (h8 : name8.length = 8) (h4 : tag4.length = 4)
    (hL : L < 4294967296) (hcnt : cnt < 4294967296) (hL2 : L2 < 4294967296)
    (hcur : c.cur = be4 L ++ (name8 ++ (be4 cnt ++ (tag4 ++ (be4 L2 ++ post))))) :
    read_block_header c =
      if L = L2 then .ok ((pyStrip (l2S name8), cnt, l2S tag4), c.adv 24)
      else .error (.frameMismatch L L2) := by
  have e1 := read_integers_one c (be4 L) _ hcur (be4_length L)
  have hc1 : (c.adv 4).cur = name8 ++ (be4 cnt ++ (tag4 ++ (be4 L2 ++ post))) := by
    rw [Cursor.cur_adv, hcur, drop_append_exact _ _ 4 (be4_length L)]
  have e2 := read_strings_one (c.adv 4) name8 _ hc1 h8
  have hc2 : ((c.adv 4).adv 8).cur = be4 cnt ++ (tag4 ++ (be4 L2 ++ post)) := by
    rw [Cursor.cur_adv, hc1, drop_append_exact _ _ 8 h8]
  have e3 := read_integers_one ((c.adv 4).adv 8) (be4 cnt) _ hc2 (be4_length cnt)
  have hc3 : (((c.adv 4).adv 8).adv 4).cur = tag4 ++ (be4 L2 ++ post) := by
    rw [Cursor.cur_adv, hc2, drop_append_exact _ _ 4 (be4_length cnt)]
  have e4 := read_strings_short_one (((c.adv 4).adv 8).adv 4) tag4 _ hc3 h4
  have hc4 : ((((c.adv 4).adv 8).adv 4).adv 4).cur = be4 L2 ++ post := by
    rw [Cursor.cur_adv, hc3, drop_append_exact _ _ 4 h4]
  have e5 := read_integers_one ((((c.adv 4).adv 8).adv 4).adv 4) (be4 L2) _ hc4 (be4_length L2)
  simp only [read_block_header, e1, List.headD_cons]
  simp only [e2]
  simp only [e3, List.headD_cons]
  simp only [e4]
  simp only [e5, List.headD_cons]
  simp only [beNat_be4 L hL, beNat_be4 cnt hcnt, beNat_be4 L2 hL2, Cursor.adv_adv]
  norm_num

/-- `__read_block_header` at end-of-file: all reads return nothing and the
result is the end-of-stream triple. -/
theorem read_block_header_eof (c : Cursor) (hcur : c.cur = []) :
    read_block_header c = .ok (("", 0, ""), c) := by
  have hrB : ∀ n, c.readB n = ([], c) := by
    intro n
    simp [Cursor.readB, hcur]
  have htrim : pyStrip "" = "" := by decide
  have e1 : read_integers c 4 = ([0], c) := by
    simp [read_integers, readIntegersGo, hrB, beNat]
  have e2 : read_strings c 8 = ([""], c) := by
    simp only [read_strings, readStringsGo, hrB]
    simp [l2S, htrim]
  have e3 : read_strings_short c 4 = ([""], c) := by
    simp only [read_strings_short, readStringsShortGo, hrB]
    simp [l2S]
  simp only [read_block_header, e1, e2, e3, List.headD_cons]
  norm_num

/-! ## Section reads over encoded block lists -/

theorem typeLength_pos (rt : String) : 0 < typeLength rt := by
  unfold typeLength
  split <;> omega

theorem decodeElem_INTE (bs : List Nat) : decodeElem "INTE" bs = .int (beNat bs) := rfl

theorem decodeElem_REAL (bs : List Nat) : decodeElem "REAL" bs = .real (beNat bs) := rfl

theorem decodeElem_DOUB (bs : List Nat) : decodeElem "DOUB" bs = .doubTup [leNat bs] := rfl

theorem decodeElem_LOGI (bs : List Nat) :
    decodeElem "LOGI" bs = .bool (decide (beNat bs > 0)) := rfl

theorem encodeBlocks_nil : encodeBlocks [] = [] := rfl

theorem encodeBlocks_cons (b : List Nat) (bs : List (List Nat)) :
    encodeBlocks (b :: bs) = encodeBlock b ++ encodeBlocks bs := by
  simp [encodeBlocks]

theorem decodeBlocksList_nil (rt : String) : decodeBlocksList rt [] = [] := rfl

theorem decodeBlocksList_cons (rt : String) (b : List Nat) (bs : List (List Nat)) :
    decodeBlocksList rt (b :: bs) = decodeBlockP rt b ++ decodeBlocksList rt bs := by
  simp [decodeBlocksList]

theorem sumCaps_nil (w : Nat) : sumCaps w [] = 0 := rfl

theorem sumCaps_cons (w : Nat) (b : List Nat) (bs : List (List Nat)) :
    sumCaps w (b :: bs) = b.length / w + sumCaps w bs := by
  simp [sumCaps]

theorem encodeBlock_length (b : List Nat) : (encodeBlock b).length = b.length + 8 := by
  simp [encodeBlock, be4]

theorem decodeBlockP_length (rt : String) (b : List Nat) :
    (decodeBlockP rt b).length = b.length / typeLength rt := by
  simp [decodeBlockP, chunks, chunksGo_length]

/-- Decoding one whole framed payload, for the four numeric types. -/
theorem readBlock_encode (rt : String) (hrt : rt ∈ numTypes) (c : Cursor) (b post : List Nat)
    (hcur : c.cur = b ++ post) (hdvd : typeLength rt ∣ b.length) :
    readBlock rt c b.length = .ok (decodeBlockP rt b, c.adv b.length) := by
  fin_cases hrt
  · -- INTE
    have hk : b.length = 4 * (b.length / 4) := (Nat.mul_div_cancel' hdvd).symm
    have h : read_integers c b.length
        = ((chunksGo 4 (b.length / 4) b).map beNat, c.adv (4 * (b.length / 4))) :=
      readIntegersGo_encode (b.length / 4) c b post hcur hk
    have hv : ((chunksGo 4 (b.length / 4) b).map beNat).map (fun n => PyVal.int (Int.ofNat n))
        = decodeBlockP "INTE" b := by
      rw [List.map_map]
      exact (List.map_congr_left (fun x _ => rfl)).symm
    unfold readBlock
    rw [if_pos rfl]
    simp only [h, ← hk, hv]
  · -- REAL
    have hk : b.length = 4 * (b.length / 4) := (Nat.mul_div_cancel' hdvd).symm
    have h : read_reals c b.length
        = .ok ((chunksGo 4 (b.length / 4) b).map beNat, c.adv (4 * (b.length / 4))) :=
      readRealsGo_encode (b.length / 4) c b post hcur hk
    have hv : ((chunksGo 4 (b.length / 4) b).map beNat).map PyVal.real
        = decodeBlockP "REAL" b := by
      rw [List.map_map]
      exact (List.map_congr_left (fun x _ => rfl)).symm
    unfold readBlock
    rw [if_neg (by decide), if_pos rfl]
    simp only [h, ← hk, hv]
  · -- DOUB
    have hk : b.length = 8 * (b.length / 8) := (Nat.mul_div_cancel' hdvd).symm
    have h : read_doubles c b.length
        = .ok ((chunksGo 8 (b.length / 8) b).map (fun x => [leNat x]), c.adv (8 * (b.length / 8))) :=
      readDoublesGo_encode (b.length / 8) c b post hcur hk
    have hv : ((chunksGo 8 (b.length / 8) b).map (fun x => [leNat x])).map PyVal.doubTup
        = decodeBlockP "DOUB" b := by
      rw [List.map_map]
      exact (List.map_congr_left (fun x _ => rfl)).symm
    unfold readBlock
    rw [if_neg (by decide), if_neg (by decide), if_pos rfl]
    simp only [h, ← hk, hv]
  · -- LOGI
    have hk : b.length = 4 * (b.length / 4) := (Nat.mul_div_cancel' hdvd).symm
    have h : read_logis c b.length
        = ((chunksGo 4 (b.length / 4) b).map (fun x => decide (beNat x > 0)),
           c.adv (4 * (b.length / 4))) :=
      readLogisGo_encode (b.length / 4) c b post hcur hk
    have hv : ((chunksGo 4 (b.length / 4) b).map (fun x => decide (beNat x > 0))).map PyVal.bool
        = decodeBlockP "LOGI" b := by
      rw [List.map_map]
      exact (List.map_congr_left (fun x _ => rfl)).symm
    unfold readBlock
    rw [if_neg (by decide), if_neg (by decide), if_neg (by decide), if_neg (by decide),
      if_pos rfl]
    simp only [h, ← hk, hv]

theorem decodeBlockP_single (rt : String) (b : List Nat) (hb : b.length = typeLength rt) :
    decodeBlockP rt b = [decodeElem rt b] := by
  unfold decodeBlockP chunks
  rw [hb, Nat.div_self (typeLength_pos rt)]
  simp [chunksGo, List.take_of_length_le (le_of_eq hb)]

/-- Decoding a single element off the cursor (the default-count read in the
on-demand arm). -/
theorem readBlock_one (rt : String) (hrt : rt ∈ numTypes) (c : Cursor)
    (hlen : typeLength rt ≤ c.cur.length) :
    readBlock rt c (typeLength rt) =
      .ok ([decodeElem rt (c.cur.take (typeLength rt))], c.adv (typeLength rt)) := by
  have hsplit : c.cur = c.cur.take (typeLength rt) ++ c.cur.drop (typeLength rt) :=
    (List.take_append_drop _ _).symm
  have hlen2 : (c.cur.take (typeLength rt)).length = typeLength rt := by
    rw [List.length_take]
    omega
  have h := readBlock_encode rt hrt c _ _ hsplit (by rw [hlen2])
  rw [hlen2] at h
  rw [h, decodeBlockP_single rt _ hlen2]

/-- `__read_record`'s loop consumes an encoded block list exactly when the
total capacity matches the remaining declared count: it returns every decoded
element in order and leaves the cursor at the first byte after the last
block's trailing marker. -/
theorem readRecordGo_encode (count : Nat) (rt : String) (hrt : rt ∈ numTypes) :
    ∀ (bs : List (List Nat)) (fuel : Nat) (c : Cursor) (i : Nat) (acc : List PyVal)
      (post : List Nat),
    (∀ b ∈ bs, WFblock (typeLength rt) b) →
    c.cur = encodeBlocks bs ++ post →
    i + sumCaps (typeLength rt) bs = count + 1 →
    bs.length + 1 ≤ fuel →
    readRecordGo fuel c i count rt acc =
      some (.ok (acc ++ decodeBlocksList rt bs, c.adv (encodeBlocks bs).length)) := by
  intro bs
  induction bs with
  | nil =>
    intro fuel c i acc post hwf hcur hinv hfuel
    match fuel, hfuel with
    | fuel + 1, _ =>
      have hi : ¬ i ≤ count := by
        rw [sumCaps_nil] at hinv
        omega
      simp [readRecordGo, hi, decodeBlocksList_nil, encodeBlocks_nil, Cursor.adv_zero]
  | cons b bs ih =>
    intro fuel c i acc post hwf hcur hinv hfuel
    match fuel, hfuel with
    | fuel + 1, hfuel =>
      have hfuel2 : bs.length + 1 ≤ fuel := by
        simp only [List.length_cons] at hfuel
        omega
      have hwb : WFblock (typeLength rt) b := hwf b (by simp)
      obtain ⟨hwle, hwdvd, hwlt, _⟩ := hwb
      have hcap : 1 ≤ b.length / typeLength rt :=
        (Nat.one_le_div_iff (typeLength_pos rt)).mpr hwle
      rw [sumCaps_cons] at hinv
      have hi : i ≤ count := by omega
      have hcur1 : c.cur = be4 b.length ++ (b ++ (be4 b.length ++ (encodeBlocks bs ++ post))) := by
        rw [hcur, encodeBlocks_cons, encodeBlock]
        simp [List.append_assoc]
      have e1 := read_integers_one c (be4 b.length) _ hcur1 (be4_length _)
      have hc1 : (c.adv 4).cur = b ++ (be4 b.length ++ (encodeBlocks bs ++ post)) := by
        rw [Cursor.cur_adv, hcur1, drop_append_exact _ _ 4 (be4_length _)]
      have e2 := readBlock_encode rt hrt (c.adv 4) b _ hc1 hwdvd
      have hc2 : ((c.adv 4).adv b.length).cur = be4 b.length ++ (encodeBlocks bs ++ post) := by
        rw [Cursor.cur_adv, hc1, drop_append_exact _ _ b.length rfl]
      have e3 := read_integers_one ((c.adv 4).adv b.length) (be4 b.length) _ hc2 (be4_length _)
      have hc3 : (((c.adv 4).adv b.length).adv 4).cur = encodeBlocks bs ++ post := by
        rw [Cursor.cur_adv, hc2, drop_append_exact _ _ 4 (be4_length _)]
      have hrec := ih fuel (((c.adv 4).adv b.length).adv 4) (i + b.length / typeLength rt)
        (acc ++ decodeBlockP rt b) post (fun x hx => hwf x (by simp [hx]))
        hc3 (by omega) hfuel2
      have hstep : readRecordGo (fuel + 1) c i count rt acc
          = readRecordGo fuel (((c.adv 4).adv b.length).adv 4)
              (i + b.length / typeLength rt) count rt (acc ++ decodeBlockP rt b) := by
        simp only [readRecordGo]
        rw [if_pos hi]
        simp only [e1, List.headD_cons, beNat_be4 _ hwlt, e2, e3]
        rw [if_neg (by simp)]
        rw [decodeBlockP_length]
      have hcursor : (((c.adv 4).adv b.length).adv 4).adv (encodeBlocks bs).length
          = c.adv (encodeBlocks (b :: bs)).length := by
        simp only [Cursor.adv, encodeBlocks_cons, List.length_append, encodeBlock_length,
          Cursor.mk.injEq, true_and]
        omega
      have hvals : (acc ++ decodeBlockP rt b) ++ decodeBlocksList rt bs
          = acc ++ decodeBlocksList rt (b :: bs) := by
        rw [List.append_assoc, ← decodeBlocksList_cons]
      rw [hstep, hrec, hcursor, hvals]

/-! ## On-demand reads over encoded block lists -/

theorem chunksGo_getElem (w : Nat) :
    ∀ (k j : Nat) (l : List Nat), j < k →
    (chunksGo w k l)[j]? = some ((l.drop (j * w)).take w) := by
  intro k
  induction k with
  | zero => omega
  | succ k ih =>
    intro j l hj
    cases j with
    | zero => simp [chunksGo]
    | succ j =>
      have := ih j (l.drop w) (by omega)
      simp only [chunksGo, List.getElem?_cons_succ, this, List.drop_drop]
      rw [show w + j * w = (j + 1) * w by ring]

theorem decodeBlockP_getElem (rt : String) (b : List Nat) (j : Nat)
    (hj : j < b.length / typeLength rt) :
    (decodeBlockP rt b)[j]? =
      some (decodeElem rt ((b.drop (j * typeLength rt)).take (typeLength rt))) := by
  unfold decodeBlockP chunks
  rw [List.getElem?_map, chunksGo_getElem _ _ _ _ hj]
  rfl

/-- One skipped block in `__read_record_on_demand`: a relative seek over the
payload, the trailing-marker check, and `i += capacity`. -/
theorem rrodGo_step_skip (fuel : Nat) (c : Cursor) (i target count : Nat) (rt : String)
    (result : List PyVal) (d : Nat) (b rest2 : List Nat)
    (hwlt : b.length < 4294967296)
    (hcur : c.cur = encodeBlock b ++ rest2)
    (hskip : target > i + b.length / typeLength rt ∨ target < i)
    (hi : i ≤ count) :
    rrodGo (fuel + 1) c i target count rt result d =
      rrodGo fuel (c.adv (b.length + 8)) (i + b.length / typeLength rt) target count rt
        result d := by
  have hcur1 : c.cur = be4 b.length ++ (b ++ (be4 b.length ++ rest2)) := by
    rw [hcur, encodeBlock]
    simp [List.append_assoc]
  have e1 := read_integers_one c (be4 b.length) _ hcur1 (be4_length _)
  have hseek : (c.adv 4).seekR ((b.length : Nat) : Int) = (c.adv 4).adv b.length :=
    Cursor.seekR_natCast _ _
  have hc1 : (c.adv 4).cur = b ++ (be4 b.length ++ rest2) := by
    rw [Cursor.cur_adv, hcur1, drop_append_exact _ _ 4 (be4_length _)]
  have hc2 : ((c.adv 4).adv b.length).cur = be4 b.length ++ rest2 := by
    rw [Cursor.cur_adv, hc1, drop_append_exact _ _ b.length rfl]
  have e3 := read_integers_one ((c.adv 4).adv b.length) (be4 b.length) _ hc2 (be4_length _)
  have hcursor : (((c.adv 4).adv b.length).adv 4) = c.adv (b.length + 8) := by
    simp only [Cursor.adv, Cursor.mk.injEq, true_and]
    omega
  simp only [rrodGo]
  rw [if_pos hi]
  simp only [e1, List.headD_cons, beNat_be4 _ hwlt]
  rw [if_pos hskip]
  simp only [hseek, e3, List.headD_cons, beNat_be4 _ hwlt]
  rw [if_neg (by simp), hcursor]

/-- One decoded block in `__read_record_on_demand` (the arm taken whenever
`i ≤ target ≤ i + capacity` — note the inclusive right end): seek
`(target-i)*width` into the payload, decode one element (replacing `result`),
seek to the trailing marker, check it, `i += capacity`.  At
`target = i + capacity` the element read actually starts at the trailing
marker itself and the closing seek is negative; the cursor still ends exactly
after the block. -/
theorem rrodGo_step_decode (fuel : Nat) (c : Cursor) (i target count : Nat) (rt : String)
    (hrt : rt ∈ numTypes) (result : List PyVal) (d : Nat) (b rest2 : List Nat)
    (hwlt : b.length < 4294967296)
    (hcur : c.cur = encodeBlock b ++ rest2)
    (hskip : ¬(target > i + b.length / typeLength rt ∨ target < i))
    (hi : i ≤ count)
    (hroom : (target - i) * typeLength rt + typeLength rt ≤ b.length + 4 + rest2.length) :
    rrodGo (fuel + 1) c i target count rt result d =
      rrodGo fuel (c.adv (b.length + 8)) (i + b.length / typeLength rt) target count rt
        [decodeElem rt ((c.cur.drop (4 + (target - i) * typeLength rt)).take (typeLength rt))]
        (d + 1) := by
  have hcur1 : c.cur = be4 b.length ++ (b ++ (be4 b.length ++ rest2)) := by
    rw [hcur, encodeBlock]
    simp [List.append_assoc]
  have e1 := read_integers_one c (be4 b.length) _ hcur1 (be4_length _)
  have hseek : (c.adv 4).seekR (((target - i) * typeLength rt : Nat) : Int)
      = (c.adv 4).adv ((target - i) * typeLength rt) := Cursor.seekR_natCast _ _
  have hc1 : (c.adv 4).cur = b ++ (be4 b.length ++ rest2) := by
    rw [Cursor.cur_adv, hcur1, drop_append_exact _ _ 4 (be4_length _)]
  have hclen : c.cur.length = b.length + 8 + rest2.length := by
    rw [hcur, List.length_append, encodeBlock_length]
  have hcskip : ((c.adv 4).adv ((target - i) * typeLength rt)).cur
      = c.cur.drop (4 + (target - i) * typeLength rt) := by
    rw [Cursor.cur_adv, Cursor.cur_adv, List.drop_drop]
  have hlenroom : typeLength rt ≤ ((c.adv 4).adv ((target - i) * typeLength rt)).cur.length := by
    rw [hcskip, List.length_drop]
    omega
  have e2 := readBlock_one rt hrt ((c.adv 4).adv ((target - i) * typeLength rt)) hlenroom
  rw [hcskip] at e2
  have hseek2 : ((((c.adv 4).adv ((target - i) * typeLength rt)).adv (typeLength rt)).seekR
        ((b.length : Int) - ((target - i) * typeLength rt : Nat) - (typeLength rt : Nat)))
      = (c.adv 4).adv b.length := by
    simp only [Cursor.seekR, Cursor.adv, Cursor.mk.injEq, true_and]
    omega
  have hc2 : ((c.adv 4).adv b.length).cur = be4 b.length ++ rest2 := by
    rw [Cursor.cur_adv, hc1, drop_append_exact _ _ b.length rfl]
  have e3 := read_integers_one ((c.adv 4).adv b.length) (be4 b.length) _ hc2 (be4_length _)
  have hcursor : (((c.adv 4).adv b.length).adv 4) = c.adv (b.length + 8) := by
    simp only [Cursor.adv, Cursor.mk.injEq, true_and]
    omega
  simp only [rrodGo]
  rw [if_pos hi]
  simp only [e1, List.headD_cons, beNat_be4 _ hwlt]
  rw [if_neg hskip]
  simp only [hseek, e2, hseek2, e3, List.headD_cons, beNat_be4 _ hwlt]
  rw [if_neg (by simp), hcursor]

theorem adv_encodeBlocks_cons (c : Cursor) (b : List Nat) (bs : List (List Nat)) :
    (c.adv (b.length + 8)).adv (encodeBlocks bs).length
      = c.adv (encodeBlocks (b :: bs)).length := by
  simp only [Cursor.adv, encodeBlocks_cons, List.length_append, encodeBlock_length,
    Cursor.mk.injEq, true_and]
  omega

theorem cur_adv_encodeBlock (c : Cursor) (b : List Nat) (rest2 : List Nat)
    (hcur : c.cur = encodeBlock b ++ rest2) :
    (c.adv (b.length + 8)).cur = rest2 := by
  rw [Cursor.cur_adv, hcur, drop_append_exact _ _ _ (encodeBlock_length b)]

/-- When the target lies in no block's inclusive range — because it was
already passed (`target < i`) or is beyond the section's end boundary
(`target ≥ count + 2`) — every block is skipped: `result` and the decode
count are returned unchanged and the cursor ends after the last block. -/
theorem rrodGo_encode_miss (count : Nat) (rt : String) (target : Nat) :
    ∀ (bs : List (List Nat)) (fuel : Nat) (c : Cursor) (i : Nat) (result : List PyVal)
      (d : Nat) (post : List Nat),
    (∀ b ∈ bs, WFblock (typeLength rt) b) →
    c.cur = encodeBlocks bs ++ post →
    i + sumCaps (typeLength rt) bs = count + 1 →
    (target < i ∨ count + 2 ≤ target) →
    bs.length + 1 ≤ fuel →
    rrodGo fuel c i target count rt result d =
      some (.ok (result, c.adv (encodeBlocks bs).length, d)) := by
  intro bs
  induction bs with
  | nil =>
    intro fuel c i result d post hwf hcur hinv hmiss hfuel
    match fuel, hfuel with
    | fuel + 1, _ =>
      have hi : ¬ i ≤ count := by
        rw [sumCaps_nil] at hinv
        omega
      simp [rrodGo, hi, encodeBlocks_nil, Cursor.adv_zero]
  | cons b bs ih =>
    intro fuel c i result d post hwf hcur hinv hmiss hfuel
    match fuel, hfuel with
    | fuel + 1, hfuel =>
      have hfuel2 : bs.length + 1 ≤ fuel := by
        simp only [List.length_cons] at hfuel
        omega
      have hwb : WFblock (typeLength rt) b := hwf b (by simp)
      obtain ⟨hwle, hwdvd, hwlt, _⟩ := hwb
      have hcap : 1 ≤ b.length / typeLength rt :=
        (Nat.one_le_div_iff (typeLength_pos rt)).mpr hwle
      rw [sumCaps_cons] at hinv
      have hi : i ≤ count := by omega
      have hcur1 : c.cur = encodeBlock b ++ (encodeBlocks bs ++ post) := by
        rw [hcur, encodeBlocks_cons, List.append_assoc]
      have hskip : target > i + b.length / typeLength rt ∨ target < i := by
        rcases hmiss with h | h
        · right; exact h
        · left; omega
      have hmiss2 : target < i + b.length / typeLength rt ∨ count + 2 ≤ target := by
        rcases hmiss with h | h
        · left
          omega
        · right
          exact h
      rw [rrodGo_step_skip fuel c i target count rt result d b _ hwlt hcur1 hskip hi]
      rw [ih fuel (c.adv (b.length + 8)) (i + b.length / typeLength rt) result d post
        (fun x hx => hwf x (by simp [hx])) (cur_adv_encodeBlock c b _ hcur1) (by omega)
        hmiss2 hfuel2]
      rw [adv_encodeBlocks_cons]

/-- When `i ≤ target ≤ count`, the on-demand scan returns exactly the
`(target - i)`-th decoded element of the section — even when `target`
coincides with a block boundary (`target = i + capacity` of a non-final
block): the garbage element decoded there is overwritten by the decode in the
following block, so the returned value is still correct. -/
theorem rrodGo_encode_found (count : Nat) (rt : String) (hrt : rt ∈ numTypes) (target : Nat) :
    ∀ (bs : List (List Nat)) (fuel : Nat) (c : Cursor) (i : Nat) (result : List PyVal)
      (d : Nat) (post : List Nat),
    (∀ b ∈ bs, WFblock (typeLength rt) b) →
    c.cur = encodeBlocks bs ++ post →
    i + sumCaps (typeLength rt) bs = count + 1 →
    i ≤ target → target ≤ count →
    bs.length + 1 ≤ fuel →
    ∃ v d2, (decodeBlocksList rt bs)[target - i]? = some v ∧
      rrodGo fuel c i target count rt result d =
        some (.ok ([v], c.adv (encodeBlocks bs).length, d2)) := by
  intro bs
  induction bs with
  | nil =>
    intro fuel c i result d post hwf hcur hinv hit htc hfuel
    rw [sumCaps_nil] at hinv
    omega
  | cons b bs ih =>
    intro fuel c i result d post hwf hcur hinv hit htc hfuel
    match fuel, hfuel with
    | fuel + 1, hfuel =>
      have hfuel2 : bs.length + 1 ≤ fuel := by
        simp only [List.length_cons] at hfuel
        omega
      have hwb : WFblock (typeLength rt) b := hwf b (by simp)
      obtain ⟨hwle, hwdvd, hwlt, _⟩ := hwb
      have htl := typeLength_pos rt
      have hcap : 1 ≤ b.length / typeLength rt := (Nat.one_le_div_iff htl).mpr hwle
      have hmul : b.length / typeLength rt * typeLength rt = b.length :=
        Nat.div_mul_cancel hwdvd
      rw [sumCaps_cons] at hinv
      have hi : i ≤ count := by omega
      have hcur1 : c.cur = encodeBlock b ++ (encodeBlocks bs ++ post) := by
        rw [hcur, encodeBlocks_cons, List.append_assoc]
      have hPlen : (decodeBlockP rt b).length = b.length / typeLength rt :=
        decodeBlockP_length rt b
      by_cases hgt : target > i + b.length / typeLength rt
      · -- target beyond this block: skipped
        obtain ⟨v, d2, hv, hrun⟩ := ih fuel (c.adv (b.length + 8))
          (i + b.length / typeLength rt) result d post
          (fun x hx => hwf x (by simp [hx])) (cur_adv_encodeBlock c b _ hcur1)
          (by omega) (by omega) htc hfuel2
        refine ⟨v, d2, ?_, ?_⟩
        · rw [decodeBlocksList_cons,
            List.getElem?_append_right (by rw [hPlen]; omega), hPlen,
            show target - i - b.length / typeLength rt
              = target - (i + b.length / typeLength rt) from by omega]
          exact hv
        · rw [rrodGo_step_skip fuel c i target count rt result d b _ hwlt hcur1 (Or.inl hgt) hi,
            hrun, adv_encodeBlocks_cons]
      · -- target within this block's inclusive range: decode arm
        have hskip : ¬(target > i + b.length / typeLength rt ∨ target < i) := by
          push_neg
          exact ⟨by omega, hit⟩
        by_cases hb2 : target = i + b.length / typeLength rt
        · -- boundary: a garbage element is decoded here, then overwritten
          have hbsne : sumCaps (typeLength rt) bs ≥ 1 := by omega
          have hrlen : 8 ≤ (encodeBlocks bs).length := by
            match bs, hbsne with
            | b2 :: bs2, _ =>
              rw [encodeBlocks_cons, List.length_append, encodeBlock_length]
              omega
          have hroom : (target - i) * typeLength rt + typeLength rt
              ≤ b.length + 4 + (encodeBlocks bs ++ post).length := by
            have hsk : (target - i) * typeLength rt = b.length := by
              rw [hb2, Nat.add_sub_cancel_left, hmul]
            have htl8 : typeLength rt ≤ 8 := by
              unfold typeLength
              split <;> omega
            rw [hsk, List.length_append]
            omega
          obtain ⟨v, d2, hv, hrun⟩ := ih fuel (c.adv (b.length + 8))
            (i + b.length / typeLength rt)
            [decodeElem rt ((c.cur.drop (4 + (target - i) * typeLength rt)).take (typeLength rt))]
            (d + 1) post
            (fun x hx => hwf x (by simp [hx])) (cur_adv_encodeBlock c b _ hcur1)
            (by omega) (by omega) htc hfuel2
          refine ⟨v, d2, ?_, ?_⟩
          · rw [decodeBlocksList_cons,
              List.getElem?_append_right (by rw [hPlen]; omega), hPlen,
              show target - i - b.length / typeLength rt
                = target - (i + b.length / typeLength rt) from by omega]
            exact hv
          · rw [rrodGo_step_decode fuel c i target count rt hrt result d b _ hwlt hcur1 hskip
              hi hroom, hrun, adv_encodeBlocks_cons]
        · -- strictly inside: the element decoded is the final result
          have hlt : target - i < b.length / typeLength rt := by omega
          have hroom : (target - i) * typeLength rt + typeLength rt
              ≤ b.length + 4 + (encodeBlocks bs ++ post).length := by
            have h1 : (target - i) * typeLength rt + typeLength rt
                = (target - i + 1) * typeLength rt := by ring
            have h2 : (target - i + 1) * typeLength rt
                ≤ b.length / typeLength rt * typeLength rt :=
              Nat.mul_le_mul_right _ (by omega)
            rw [hmul] at h2
            omega
          have hskiplen : (target - i) * typeLength rt + typeLength rt ≤ b.length := by
            have h1 : (target - i) * typeLength rt + typeLength rt
                = (target - i + 1) * typeLength rt := by ring
            have h2 : (target - i + 1) * typeLength rt
                ≤ b.length / typeLength rt * typeLength rt :=
              Nat.mul_le_mul_right _ (by omega)
            rw [hmul] at h2
            omega
          have hcur2 : c.cur = be4 b.length ++ (b ++ (be4 b.length ++ (encodeBlocks bs ++ post))) := by
            rw [hcur1, encodeBlock]
            simp [List.append_assoc]
          have hdropcur : c.cur.drop (4 + (target - i) * typeLength rt)
              = b.drop ((target - i) * typeLength rt)
                ++ (be4 b.length ++ (encodeBlocks bs ++ post)) := by
            rw [← List.drop_drop, hcur2,
              drop_append_exact _ _ 4 (be4_length _),
              List.drop_append_of_le_length (by omega)]
          have htake : (c.cur.drop (4 + (target - i) * typeLength rt)).take (typeLength rt)
              = (b.drop ((target - i) * typeLength rt)).take (typeLength rt) := by
            rw [hdropcur, List.take_append_of_le_length (by rw [List.length_drop]; omega)]
          refine ⟨decodeElem rt ((b.drop ((target - i) * typeLength rt)).take (typeLength rt)),
            d + 1, ?_, ?_⟩
          · rw [decodeBlocksList_cons,
              List.getElem?_append_left (by rw [hPlen]; omega)]
            exact decodeBlockP_getElem rt b _ hlt
          · rw [rrodGo_step_decode fuel c i target count rt hrt result d b _ hwlt hcur1 hskip
              hi hroom, htake]
            rw [rrodGo_encode_miss count rt target bs fuel (c.adv (b.length + 8))
              (i + b.length / typeLength rt) _ (d + 1) post
              (fun x hx => hwf x (by simp [hx])) (cur_adv_encodeBlock c b _ hcur1)
              (by omega) (Or.inl (by omega)) hfuel2]
            rw [adv_encodeBlocks_cons]

/-- The no-boundary refinement: when the target also differs from every block
boundary position `i + (capacity of a nonempty prefix)`, exactly one decode
operation happens in the whole scan (the decode counter rises from `d` to
`d + 1`), and every other block is passed over by seeks alone. -/
theorem rrodGo_encode_found_nb (count : Nat) (rt : String) (hrt : rt ∈ numTypes) (target : Nat) :
    ∀ (bs : List (List Nat)) (fuel : Nat) (c : Cursor) (i : Nat) (result : List PyVal)
      (d : Nat) (post : List Nat),
    (∀ b ∈ bs, WFblock (typeLength rt) b) →
    c.cur = encodeBlocks bs ++ post →
    i + sumCaps (typeLength rt) bs = count + 1 →
    i ≤ target → target ≤ count →
    (∀ pre suf, bs = pre ++ suf → pre ≠ [] → target ≠ i + sumCaps (typeLength rt) pre) →
    bs.length + 1 ≤ fuel →
    ∃ v, (decodeBlocksList rt bs)[target - i]? = some v ∧
      rrodGo fuel c i target count rt result d =
        some (.ok ([v], c.adv (encodeBlocks bs).length, d + 1)) := by
  intro bs
  induction bs with
  | nil =>
    intro fuel c i result d post hwf hcur hinv hit htc hnb hfuel
    rw [sumCaps_nil] at hinv
    omega
  | cons b bs ih =>
    intro fuel c i result d post hwf hcur hinv hit htc hnb hfuel
    match fuel, hfuel with
    | fuel + 1, hfuel =>
      have hfuel2 : bs.length + 1 ≤ fuel := by
        simp only [List.length_cons] at hfuel
        omega
      have hwb : WFblock (typeLength rt) b := hwf b (by simp)
      obtain ⟨hwle, hwdvd, hwlt, _⟩ := hwb
      have htl := typeLength_pos rt
      have hcap : 1 ≤ b.length / typeLength rt := (Nat.one_le_div_iff htl).mpr hwle
      have hmul : b.length / typeLength rt * typeLength rt = b.length :=
        Nat.div_mul_cancel hwdvd
      rw [sumCaps_cons] at hinv
      have hi : i ≤ count := by omega
      have hcur1 : c.cur = encodeBlock b ++ (encodeBlocks bs ++ post) := by
        rw [hcur, encodeBlocks_cons, List.append_assoc]
      have hPlen : (decodeBlockP rt b).length = b.length / typeLength rt :=
        decodeBlockP_length rt b
      have hnb1 : target ≠ i + b.length / typeLength rt := by
        have := hnb [b] bs rfl (by simp)
        simpa [sumCaps_cons, sumCaps_nil] using this
      by_cases hgt : target > i + b.length / typeLength rt
      · -- skipped
        have hnb2 : ∀ pre suf, bs = pre ++ suf → pre ≠ [] →
            target ≠ i + b.length / typeLength rt + sumCaps (typeLength rt) pre := by
          intro pre suf hps hpre
          have := hnb (b :: pre) suf (by rw [hps]; rfl) (by simp)
          rw [sumCaps_cons] at this
          omega
        obtain ⟨v, hv, hrun⟩ := ih fuel (c.adv (b.length + 8))
          (i + b.length / typeLength rt) result d post
          (fun x hx => hwf x (by simp [hx])) (cur_adv_encodeBlock c b _ hcur1)
          (by omega) (by omega) htc hnb2 hfuel2
        refine ⟨v, ?_, ?_⟩
        · rw [decodeBlocksList_cons,
            List.getElem?_append_right (by rw [hPlen]; omega), hPlen,
            show target - i - b.length / typeLength rt
              = target - (i + b.length / typeLength rt) from by omega]
          exact hv
        · rw [rrodGo_step_skip fuel c i target count rt result d b _ hwlt hcur1 (Or.inl hgt) hi,
            hrun, adv_encodeBlocks_cons]
      · -- strictly inside (the boundary case is excluded by hnb1)
        have hskip : ¬(target > i + b.length / typeLength rt ∨ target < i) := by
          push_neg
          exact ⟨by omega, hit⟩
        have hlt : target - i < b.length / typeLength rt := by omega
        have hroom : (target - i) * typeLength rt + typeLength rt
            ≤ b.length + 4 + (encodeBlocks bs ++ post).length := by
          have h1 : (target - i) * typeLength rt + typeLength rt
              = (target - i + 1) * typeLength rt := by ring
          have h2 : (target - i + 1) * typeLength rt
              ≤ b.length / typeLength rt * typeLength rt :=
            Nat.mul_le_mul_right _ (by omega)
          rw [hmul] at h2
          omega
        have hskiplen : (target - i) * typeLength rt + typeLength rt ≤ b.length := by
          have h1 : (target - i) * typeLength rt + typeLength rt
              = (target - i + 1) * typeLength rt := by ring
          have h2 : (target - i + 1) * typeLength rt
              ≤ b.length / typeLength rt * typeLength rt :=
            Nat.mul_le_mul_right _ (by omega)
          rw [hmul] at h2
          omega
        have hcur2 : c.cur = be4 b.length ++ (b ++ (be4 b.length ++ (encodeBlocks bs ++ post))) := by
          rw [hcur1, encodeBlock]
          simp [List.append_assoc]
        have hdropcur : c.cur.drop (4 + (target - i) * typeLength rt)
            = b.drop ((target - i) * typeLength rt)
              ++ (be4 b.length ++ (encodeBlocks bs ++ post)) := by
          rw [← List.drop_drop, hcur2,
            drop_append_exact _ _ 4 (be4_length _),
            List.drop_append_of_le_length (by omega)]
        have htake : (c.cur.drop (4 + (target - i) * typeLength rt)).take (typeLength rt)
            = (b.drop ((target - i) * typeLength rt)).take (typeLength rt) := by
          rw [hdropcur, List.take_append_of_le_length (by rw [List.length_drop]; omega)]
        refine ⟨decodeElem rt ((b.drop ((target - i) * typeLength rt)).take (typeLength rt)),
          ?_, ?_⟩
        · rw [decodeBlocksList_cons,
            List.getElem?_append_left (by rw [hPlen]; omega)]
          exact decodeBlockP_getElem rt b _ hlt
        · rw [rrodGo_step_decode fuel c i target count rt hrt result d b _ hwlt hcur1 hskip
            hi hroom, htake]
          rw [rrodGo_encode_miss count rt target bs fuel (c.adv (b.length + 8))
            (i + b.length / typeLength rt) _ (d + 1) post
            (fun x hx => hwf x (by simp [hx])) (cur_adv_encodeBlock c b _ hcur1)
            (by omega) (Or.inl (by omega)) hfuel2]
          rw [adv_encodeBlocks_cons]

/-! ## Whole-file lemmas -/

theorem encodeBlocks_length_ge (bs : List (List Nat)) : bs.length ≤ (encodeBlocks bs).length := by
  induction bs with
  | nil => simp [encodeBlocks_nil]
  | cons b bs ih =>
    rw [encodeBlocks_cons, List.length_append, encodeBlock_length]
    simp only [List.length_cons]
    omega

/-- `__read_record` on one whole well-formed section body. -/
theorem read_record_encode (c : Cursor) (count : Nat) (rt : String) (hrt : rt ∈ numTypes)
    (bs : List (List Nat)) (post : List Nat)
    (hwf : ∀ b ∈ bs, WFblock (typeLength rt) b)
    (hcur : c.cur = encodeBlocks bs ++ post)
    (hcount : sumCaps (typeLength rt) bs = count) :
    read_record c count rt =
      some (.ok (decodeBlocksList rt bs, c.adv (encodeBlocks bs).length)) := by
  have hfuel : bs.length + 1 ≤ c.cur.length + 1 := by
    have h1 := encodeBlocks_length_ge bs
    rw [hcur, List.length_append]
    omega
  have h := readRecordGo_encode count rt hrt bs (c.cur.length + 1) c 1 [] post hwf hcur
    (by omega) hfuel
  simpa [read_record] using h

/-- `__read_record_on_demand` on one whole well-formed section body, when the
0-based index lies inside the section. -/
theorem read_record_on_demand_found (c : Cursor) (idx count : Nat) (rt : String)
    (hrt : rt ∈ numTypes) (bs : List (List Nat)) (post : List Nat)
    (hwf : ∀ b ∈ bs, WFblock (typeLength rt) b)
    (hcur : c.cur = encodeBlocks bs ++ post)
    (hcount : sumCaps (typeLength rt) bs = count)
    (hidx : idx + 1 ≤ count) :
    ∃ v d2, (decodeBlocksList rt bs)[idx]? = some v ∧
      read_record_on_demand c idx count rt =
        some (.ok ([v], c.adv (encodeBlocks bs).length, d2)) := by
  have hfuel : bs.length + 1 ≤ c.cur.length + 1 := by
    have h1 := encodeBlocks_length_ge bs
    rw [hcur, List.length_append]
    omega
  obtain ⟨v, d2, hv, hrun⟩ := rrodGo_encode_found count rt hrt (idx + 1) bs
    (c.cur.length + 1) c 1 [] 0 post hwf hcur (by omega) (by omega) (by omega) hfuel
  exact ⟨v, d2, by simpa using hv, by simpa [read_record_on_demand] using hrun⟩

/-- `__read_record_on_demand` on one whole well-formed section body, when the
index lies beyond the section's end boundary: everything is skipped and the
result stays empty. -/
theorem read_record_on_demand_miss (c : Cursor) (idx count : Nat) (rt : String)
    (bs : List (List Nat)) (post : List Nat)
    (hwf : ∀ b ∈ bs, WFblock (typeLength rt) b)
    (hcur : c.cur = encodeBlocks bs ++ post)
    (hcount : sumCaps (typeLength rt) bs = count)
    (hidx : count + 1 ≤ idx) :
    read_record_on_demand c idx count rt =
      some (.ok ([], c.adv (encodeBlocks bs).length, 0)) := by
  have hfuel : bs.length + 1 ≤ c.cur.length + 1 := by
    have h1 := encodeBlocks_length_ge bs
    rw [hcur, List.length_append]
    omega
  have h := rrodGo_encode_miss count rt (idx + 1) bs (c.cur.length + 1) c 1 [] 0 post hwf hcur
    (by omega) (Or.inr (by omega)) hfuel
  simpa [read_record_on_demand] using h

theorem encodeUnsmry_nil : encodeUnsmry [] = [] := rfl

theorem encodeUnsmry_cons (s : USec) (secs : List USec) :
    encodeUnsmry (s :: secs) = encodeSec s ++ encodeUnsmry secs := by
  simp [encodeUnsmry]

theorem SecName_bytes8_length (n : SecName) : n.bytes8.length = 8 := by
  cases n <;> rfl

theorem SecName_decode (n : SecName) : pyStrip (l2S n.bytes8) = n.str := by
  cases n <;> decide

theorem rtype_length4 (rt : String) (h : rt ∈ numTypes) : (strBytes rt).length = 4 := by
  fin_cases h <;> rfl

theorem rtype_decode (rt : String) (h : rt ∈ numTypes) : l2S (strBytes rt) = rt := by
  fin_cases h <;> decide

theorem drop_header {α : Type} (a b c' d' e' X : List α)
    (ha : a.length = 4) (hb : b.length = 8) (hc : c'.length = 4) (hd : d'.length = 4)
    (he : e'.length = 4) :
    (a ++ (b ++ (c' ++ (d' ++ (e' ++ X))))).drop 24 = X := by
  have h : a ++ (b ++ (c' ++ (d' ++ (e' ++ X)))) = (a ++ (b ++ (c' ++ (d' ++ e')))) ++ X := by
    simp [List.append_assoc]
  rw [h, drop_append_exact]
  simp [List.length_append, ha, hb, hc, hd, he]

/-- Parsing one encoded section header. -/
theorem read_block_header_encodeSec (c : Cursor) (s : USec) (rest : List Nat)
    (hrt : s.rtype ∈ numTypes) (hcnt : s.count < 4294967296)
    (hcur : c.cur = encodeSec s ++ rest) :
    read_block_header c = .ok ((s.name.str, s.count, s.rtype), c.adv 24) ∧
      (c.adv 24).cur = encodeBlocks s.blocks ++ rest := by
  have hform : c.cur = be4 16 ++ (s.name.bytes8 ++ (be4 s.count ++ (strBytes s.rtype ++
      (be4 16 ++ (encodeBlocks s.blocks ++ rest))))) := by
    rw [hcur, encodeSec]
    simp [List.append_assoc]
  have h := read_block_header_frame c 16 s.count 16 s.name.bytes8 (strBytes s.rtype) _
    (SecName_bytes8_length s.name) (rtype_length4 s.rtype hrt) (by omega) hcnt (by omega) hform
  rw [if_pos rfl, SecName_decode, rtype_decode s.rtype hrt] at h
  refine ⟨h, ?_⟩
  rw [Cursor.cur_adv, hform]
  exact drop_header _ _ _ _ _ _ (be4_length _) (SecName_bytes8_length s.name) (be4_length _)
    (rtype_length4 s.rtype hrt) (be4_length _)

theorem rowsOf_nil (n : SecName) : rowsOf n [] = [] := rfl

theorem rowsOf_cons (n : SecName) (s : USec) (secs : List USec) :
    rowsOf n (s :: secs) =
      if s.name = n then decodeBlocksList s.rtype s.blocks :: rowsOf n secs
      else rowsOf n secs := by
  by_cases h : s.name = n <;>
    simp [rowsOf, List.filter_cons, h]

theorem encodeUnsmry_length_ge (secs : List USec) :
    secs.length ≤ (encodeUnsmry secs).length := by
  induction secs with
  | nil => simp [encodeUnsmry_nil]
  | cons s secs ih =>
    rw [encodeUnsmry_cons, List.length_append]
    have hs : 4 ≤ (encodeSec s).length := by
      rw [encodeSec]
      simp [be4]
    simp only [List.length_cons]
    omega

/-- The eager scan of `__read_unsmry` over an encoded well-formed data file:
every section is decoded in file order into its per-name list. -/
theorem readUnsmryGo_encode :
    ∀ (secs : List USec) (fuel : Nat) (c : Cursor) (sh ms ps : List (List PyVal)),
    (∀ s ∈ secs, WFsec s) →
    c.cur = encodeUnsmry secs →
    secs.length + 1 ≤ fuel →
    readUnsmryGo fuel c sh ms ps =
      some (.ok (sh ++ rowsOf .seqhdr secs, ms ++ rowsOf .ministep secs,
        ps ++ rowsOf .params secs)) := by
  intro secs
  induction secs with
  | nil =>
    intro fuel c sh ms ps hwf hcur hfuel
    match fuel, hfuel with
    | fuel + 1, _ =>
      rw [encodeUnsmry_nil] at hcur
      simp only [readUnsmryGo, read_block_header_eof c hcur]
      simp [rowsOf_nil]
  | cons s secs ih =>
    intro fuel c sh ms ps hwf hcur hfuel
    match fuel, hfuel with
    | fuel + 1, hfuel =>
      have hfuel2 : secs.length + 1 ≤ fuel := by
        simp only [List.length_cons] at hfuel
        omega
      obtain ⟨hrt, hwfb, hcount, hlt32, hsmall⟩ := hwf s (by simp)
      have hcur0 : c.cur = encodeSec s ++ encodeUnsmry secs := by
        rw [hcur, encodeUnsmry_cons]
      obtain ⟨hh, hc24⟩ := read_block_header_encodeSec c s _ hrt hlt32 hcur0
      have hrr := read_record_encode (c.adv 24) s.count s.rtype hrt s.blocks _ hwfb hc24
        hcount.symm
      have hcnext : ((c.adv 24).adv (encodeBlocks s.blocks).length).cur = encodeUnsmry secs := by
        rw [Cursor.cur_adv, hc24, drop_append_exact _ _ _ rfl]
      have hrec := ih fuel ((c.adv 24).adv (encodeBlocks s.blocks).length)
      cases hn : s.name with
      | seqhdr =>
        rw [hn] at hh
        simp only [SecName.str] at hh
        simp only [readUnsmryGo, hh, hrr, if_true]
        rw [hrec (sh ++ [decodeBlocksList s.rtype s.blocks]) ms ps
          (fun x hx => hwf x (by simp [hx])) hcnext hfuel2]
        rw [rowsOf_cons, rowsOf_cons, rowsOf_cons, hn]
        simp [List.append_assoc]
      | ministep =>
        rw [hn] at hh
        simp only [SecName.str] at hh
        simp only [readUnsmryGo, hh, hrr, if_true]
        rw [hrec sh (ms ++ [decodeBlocksList s.rtype s.blocks]) ps
          (fun x hx => hwf x (by simp [hx])) hcnext hfuel2]
        rw [rowsOf_cons, rowsOf_cons, rowsOf_cons, hn]
        simp [List.append_assoc]
      | params =>
        rw [hn] at hh
        simp only [SecName.str] at hh
        simp only [readUnsmryGo, hh, hrr, if_true]
        rw [hrec sh ms (ps ++ [decodeBlocksList s.rtype s.blocks])
          (fun x hx => hwf x (by simp [hx])) hcnext hfuel2]
        rw [rowsOf_cons, rowsOf_cons, rowsOf_cons, hn]
        simp [List.append_assoc]

/-- `__read_unsmry` on an encoded well-formed data file. -/
theorem read_unsmry_encode (secs : List USec) (hwf : ∀ s ∈ secs, WFsec s) :
    read_unsmry (encodeUnsmry secs) =
      some (.ok (rowsOf .seqhdr secs, rowsOf .ministep secs, rowsOf .params secs)) := by
  have hfuel : secs.length + 1 ≤ (encodeUnsmry secs).length + 1 := by
    have := encodeUnsmry_length_ge secs
    omega
  have h := readUnsmryGo_encode secs ((encodeUnsmry secs).length + 1) ⟨encodeUnsmry secs, 0⟩
    [] [] [] hwf (by simp [Cursor.cur]) hfuel
  simpa [read_unsmry] using h

/-- The on-demand scan inside `vector` over an encoded well-formed data file:
`SEQHDR`/`MINISTEP` sections are passed over (their counts are below the 9999
sentinel target), and each `PARAMS` section contributes the singleton row
holding its element at 0-based index `i`. -/
theorem vectorScanGo_encode (i : Nat) :
    ∀ (secs : List USec) (fuel : Nat) (c : Cursor) (acc : List (List PyVal)),
    (∀ s ∈ secs, WFsec s) →
    (∀ s ∈ secs, s.name = .params → i + 1 ≤ s.count) →
    c.cur = encodeUnsmry secs →
    secs.length + 1 ≤ fuel →
    vectorScanGo fuel c i acc =
      some (.ok (acc ++ (rowsOf .params secs).map (fun row => (row[i]?).toList))) := by
  intro secs
  induction secs with
  | nil =>
    intro fuel c acc hwf hcol hcur hfuel
    match fuel, hfuel with
    | fuel + 1, _ =>
      rw [encodeUnsmry_nil] at hcur
      simp only [vectorScanGo, read_block_header_eof c hcur]
      simp [rowsOf_nil]
  | cons s secs ih =>
    intro fuel c acc hwf hcol hcur hfuel
    match fuel, hfuel with
    | fuel + 1, hfuel =>
      have hfuel2 : secs.length + 1 ≤ fuel := by
        simp only [List.length_cons] at hfuel
        omega
      obtain ⟨hrt, hwfb, hcount, hlt32, hsmall⟩ := hwf s (by simp)
      have hcur0 : c.cur = encodeSec s ++ encodeUnsmry secs := by
        rw [hcur, encodeUnsmry_cons]
      obtain ⟨hh, hc24⟩ := read_block_header_encodeSec c s _ hrt hlt32 hcur0
      have hcnext : ((c.adv 24).adv (encodeBlocks s.blocks).length).cur = encodeUnsmry secs := by
        rw [Cursor.cur_adv, hc24, drop_append_exact _ _ _ rfl]
      have hwfrec : ∀ x ∈ secs, WFsec x := fun x hx => hwf x (by simp [hx])
      have hcolrec : ∀ x ∈ secs, x.name = .params → i + 1 ≤ x.count :=
        fun x hx => hcol x (by simp [hx])
      cases hn : s.name with
      | seqhdr =>
        rw [hn] at hh
        simp only [SecName.str] at hh
        have hmiss := read_record_on_demand_miss (c.adv 24) 9999 s.count s.rtype s.blocks _
          hwfb hc24 hcount.symm (by
            have := hsmall (by rw [hn]; decide)
            omega)
        simp only [vectorScanGo, hh, hmiss, if_true]
        rw [ih fuel ((c.adv 24).adv (encodeBlocks s.blocks).length) acc hwfrec hcolrec
          hcnext hfuel2]
        rw [rowsOf_cons, hn]
        simp
      | ministep =>
        rw [hn] at hh
        simp only [SecName.str] at hh
        have hmiss := read_record_on_demand_miss (c.adv 24) 9999 s.count s.rtype s.blocks _
          hwfb hc24 hcount.symm (by
            have := hsmall (by rw [hn]; decide)
            omega)
        simp only [vectorScanGo, hh, hmiss, if_true]
        rw [ih fuel ((c.adv 24).adv (encodeBlocks s.blocks).length) acc hwfrec hcolrec
          hcnext hfuel2]
        rw [rowsOf_cons, hn]
        simp
      | params =>
        rw [hn] at hh
        simp only [SecName.str] at hh
        obtain ⟨v, d2, hv, hrun⟩ := read_record_on_demand_found (c.adv 24) i s.count s.rtype
          hrt s.blocks _ hwfb hc24 hcount.symm (hcol s (by simp) hn)
        simp only [vectorScanGo, hh, hrun, if_true]
        rw [ih fuel ((c.adv 24).adv (encodeBlocks s.blocks).length) (acc ++ [[v]]) hwfrec
          hcolrec hcnext hfuel2]
        rw [rowsOf_cons, hn]
        simp [hv, List.append_assoc]

/-- The on-demand column extraction on an encoded well-formed data file. -/
theorem vectorScan_encode (secs : List USec) (i : Nat)
    (hwf : ∀ s ∈ secs, WFsec s)
    (hcol : ∀ s ∈ secs, s.name = .params → i + 1 ≤ s.count) :
    vectorScan (encodeUnsmry secs) i =
      some (.ok ((rowsOf .params secs).map (fun row => (row[i]?).toList))) := by
  have hfuel : secs.length + 1 ≤ (encodeUnsmry secs).length + 1 := by
    have := encodeUnsmry_length_ge secs
    omega
  have h := vectorScanGo_encode i secs ((encodeUnsmry secs).length + 1) ⟨encodeUnsmry secs, 0⟩
    [] hwf hcol (by simp [Cursor.cur]) hfuel
  simpa [vectorScan] using h

/-- One loop iteration of `__read_record` over one well-formed framed block. -/
theorem readRecordGo_step (fuel : Nat) (c : Cursor) (i count : Nat) (rt : String)
    (hrt : rt ∈ numTypes) (acc : List PyVal) (b rest2 : List Nat)
    (hwlt : b.length < 4294967296)
    (hcur : c.cur = encodeBlock b ++ rest2)
    (hdvd : typeLength rt ∣ b.length)
    (hi : i ≤ count) :
    readRecordGo (fuel + 1) c i count rt acc =
      readRecordGo fuel (c.adv (b.length + 8)) (i + b.length / typeLength rt) count rt
        (acc ++ decodeBlockP rt b) := by
  have hcur1 : c.cur = be4 b.length ++ (b ++ (be4 b.length ++ rest2)) := by
    rw [hcur, encodeBlock]
    simp [List.append_assoc]
  have e1 := read_integers_one c (be4 b.length) _ hcur1 (be4_length _)
  have hc1 : (c.adv 4).cur = b ++ (be4 b.length ++ rest2) := by
    rw [Cursor.cur_adv, hcur1, drop_append_exact _ _ 4 (be4_length _)]
  have e2 := readBlock_encode rt hrt (c.adv 4) b _ hc1 hdvd
  have hc2 : ((c.adv 4).adv b.length).cur = be4 b.length ++ rest2 := by
    rw [Cursor.cur_adv, hc1, drop_append_exact _ _ b.length rfl]
  have e3 := read_integers_one ((c.adv 4).adv b.length) (be4 b.length) _ hc2 (be4_length _)
  have hcursor : (((c.adv 4).adv b.length).adv 4) = c.adv (b.length + 8) := by
    simp only [Cursor.adv, Cursor.mk.injEq, true_and]
    omega
  simp only [readRecordGo]
  rw [if_pos hi]
  simp only [e1, List.headD_cons, beNat_be4 _ hwlt, e2, e3]
  rw [if_neg (by simp), decodeBlockP_length, hcursor]

/-- `__read_record`'s loop terminates normally whenever the stream ahead is a
well-formed block list covering at least the declared count: the running
element total rises by at least one per block until it exceeds the count. -/
theorem readRecordGo_partial (count : Nat) (rt : String) (hrt : rt ∈ numTypes) :
    ∀ (bs : List (List Nat)) (fuel : Nat) (c : Cursor) (i : Nat) (acc : List PyVal)
      (post : List Nat),
    (∀ b ∈ bs, WFblock (typeLength rt) b) →
    c.cur = encodeBlocks bs ++ post →
    count + 1 ≤ i + sumCaps (typeLength rt) bs →
    bs.length + 1 ≤ fuel →
    ∃ vals c2, readRecordGo fuel c i count rt acc = some (.ok (vals, c2)) := by
  intro bs
  induction bs with
  | nil =>
    intro fuel c i acc post hwf hcur hinv hfuel
    match fuel, hfuel with
    | fuel + 1, _ =>
      have hi : ¬ i ≤ count := by
        rw [sumCaps_nil] at hinv
        omega
      refine ⟨acc, c, ?_⟩
      simp [readRecordGo, hi]
  | cons b bs ih =>
    intro fuel c i acc post hwf hcur hinv hfuel
    match fuel, hfuel with
    | fuel + 1, hfuel =>
      have hfuel2 : bs.length + 1 ≤ fuel := by
        simp only [List.length_cons] at hfuel
        omega
      by_cases hi : i ≤ count
      · obtain ⟨_, hwdvd, hwlt, _⟩ := hwf b (by simp)
        have hcur1 : c.cur = encodeBlock b ++ (encodeBlocks bs ++ post) := by
          rw [hcur, encodeBlocks_cons, List.append_assoc]
        rw [readRecordGo_step fuel c i count rt hrt acc b _ hwlt hcur1 hwdvd hi]
        rw [sumCaps_cons] at hinv
        exact ih fuel (c.adv (b.length + 8)) (i + b.length / typeLength rt)
          (acc ++ decodeBlockP rt b) post (fun x hx => hwf x (by simp [hx]))
          (cur_adv_encodeBlock c b _ hcur1) (by omega) hfuel2
      · refine ⟨acc, c, ?_⟩
        simp [readRecordGo, hi]

/-! ## First-appearance deduplication (used to state C9) -/

theorem dedupFirstGo_fuel {α : Type} [DecidableEq α] :
    ∀ (n m : Nat) (l : List α), l.length ≤ n → l.length ≤ m →
    dedupFirstGo n l = dedupFirstGo m l := by
  intro n
  induction n with
  | zero =>
    intro m l hn _
    have : l = [] := List.eq_nil_of_length_eq_zero (by omega)
    subst this
    cases m <;> rfl
  | succ n ih =>
    intro m l hn hm
    cases l with
    | nil => cases m <;> rfl
    | cons x xs =>
      match m, hm with
      | m + 1, hm =>
        simp only [dedupFirstGo]
        have hf := List.length_filter_le (fun y => y ≠ x) xs
        simp only [List.length_cons] at hn hm
        rw [ih m (xs.filter (fun y => y ≠ x)) (by omega) (by omega)]

theorem dedupFirst_nil {α : Type} [DecidableEq α] : dedupFirst ([] : List α) = [] := rfl

theorem dedupFirst_cons {α : Type} [DecidableEq α] (x : α) (xs : List α) :
    dedupFirst (x :: xs) = x :: dedupFirst (xs.filter (fun y => y ≠ x)) := by
  unfold dedupFirst
  simp only [List.length_cons, dedupFirstGo]
  rw [dedupFirstGo_fuel _ _ _ (List.length_filter_le _ _) (le_refl _)]

/-- The common insert-if-new step: pushing `x` through an accumulator equals
prepending `x` to the deduplicated remainder. -/
theorem dedup_step {α : Type} [DecidableEq α] (acc : List α) (x : α) (rest : List α) :
    ((if x ∉ acc then acc ++ [x] else acc) ++
      dedupFirst (rest.filter (fun y => y ∉ (if x ∉ acc then acc ++ [x] else acc))))
    = acc ++ dedupFirst ((x :: rest).filter (fun y => y ∉ acc)) := by
  by_cases hx : x ∈ acc
  · rw [if_neg (by simp [hx])]
    have : (x :: rest).filter (fun y => y ∉ acc) = rest.filter (fun y => y ∉ acc) := by
      rw [List.filter_cons]
      simp [hx]
    rw [this]
  · rw [if_pos hx]
    have h1 : (x :: rest).filter (fun y => y ∉ acc) = x :: rest.filter (fun y => y ∉ acc) := by
      rw [List.filter_cons]
      simp [hx]
    rw [h1, dedupFirst_cons]
    have h2 : (rest.filter (fun y => y ∉ acc)).filter (fun y => y ≠ x)
        = rest.filter (fun y => y ∉ acc ++ [x]) := by
      rw [List.filter_filter]
      apply List.filter_congr
      intro y _
      simp [List.mem_append, and_comm]
    rw [h2]
    simp [List.append_assoc]

/-- The collection loop of `__process_smspec` (lines 196-202), characterised:
each accumulator ends as itself followed by the first-appearance
deduplication of the new candidates. -/
theorem deriveNamesGo_spec :
    ∀ (pairs : List (PyVal × PyVal)) (wn gn vn : List PyVal),
    (∀ p ∈ pairs, ∃ s, p.1 = .str s ∧ s ≠ "") →
    deriveNamesGo pairs wn gn vn = .ok
      (wn ++ dedupFirst ((pairs.filterMap
          (fun p => if headIs 'W' p.1 then some p.2 else none)).filter (fun y => y ∉ wn)),
       gn ++ dedupFirst ((pairs.filterMap
          (fun p => if headIs 'G' p.1 then some p.2 else none)).filter (fun y => y ∉ gn)),
       vn ++ dedupFirst ((pairs.map Prod.fst).filter (fun y => y ∉ vn))) := by
  intro pairs
  induction pairs with
  | nil =>
    intro wn gn vn hstr
    simp [deriveNamesGo, dedupFirst_nil]
  | cons p rest ih =>
    intro wn gn vn hstr
    obtain ⟨k, w⟩ := p
    obtain ⟨s, hk, hs⟩ := hstr (k, w) (by simp)
    simp only at hk
    subst hk
    have hrest : ∀ q ∈ rest, ∃ t, q.1 = PyVal.str t ∧ t ≠ "" :=
      fun q hq => hstr q (by simp [hq])
    have hvstep := dedup_step vn (PyVal.str s) (rest.map Prod.fst)
    match hsd : s.data with
    | [] =>
      exact absurd (String.ext (by rw [hsd])) hs
    | c :: cs =>
      by_cases hcW : c = 'W'
      · subst hcW
        have hW : headIs 'W' (PyVal.str s) = true := by simp [headIs, hsd]
        have hG : headIs 'G' (PyVal.str s) = false := by simp [headIs, hsd]
        have hwstep := dedup_step wn w (rest.filterMap
          (fun p => if headIs 'W' p.1 then some p.2 else none))
        by_cases hw : w ∈ wn
        · simp only [deriveNamesGo, hsd]
          rw [if_neg (show ¬(True ∧ w ∉ wn) by simp [hw]),
            if_neg (show ¬('W' = 'G' ∧ w ∉ gn) by simp)]
          rw [ih wn gn _ hrest]
          rw [if_neg (show ¬ w ∉ wn by simp [hw])] at hwstep
          simp at hwstep hvstep
          simp [List.filterMap_cons, List.map_cons, hW, hG, hwstep, hvstep]
        · simp only [deriveNamesGo, hsd]
          rw [if_pos (show True ∧ w ∉ wn from ⟨trivial, hw⟩)]
          rw [ih (wn ++ [w]) gn _ hrest]
          rw [if_pos hw] at hwstep
          simp at hwstep hvstep
          simp [List.filterMap_cons, List.map_cons, hW, hG, hwstep, hvstep]
      · by_cases hcG : c = 'G'
        · subst hcG
          have hW : headIs 'W' (PyVal.str s) = false := by simp [headIs, hsd]
          have hG : headIs 'G' (PyVal.str s) = true := by simp [headIs, hsd]
          have hgstep := dedup_step gn w (rest.filterMap
            (fun p => if headIs 'G' p.1 then some p.2 else none))
          by_cases hw : w ∈ gn
          · simp only [deriveNamesGo, hsd]
            rw [if_neg (show ¬('G' = 'W' ∧ w ∉ wn) by simp),
              if_neg (show ¬(True ∧ w ∉ gn) by simp [hw])]
            rw [ih wn gn _ hrest]
            rw [if_neg (show ¬ w ∉ gn by simp [hw])] at hgstep
            simp at hgstep hvstep
            simp [List.filterMap_cons, List.map_cons, hW, hG, hgstep, hvstep]
          · simp only [deriveNamesGo, hsd]
            rw [if_neg (show ¬('G' = 'W' ∧ w ∉ wn) by simp),
              if_pos (show True ∧ w ∉ gn from ⟨trivial, hw⟩)]
            rw [ih wn (gn ++ [w]) _ hrest]
            rw [if_pos hw] at hgstep
            simp at hgstep hvstep
            simp [List.filterMap_cons, List.map_cons, hW, hG, hgstep, hvstep]
        · have hW : headIs 'W' (PyVal.str s) = false := by simp [headIs, hsd, hcW]
          have hG : headIs 'G' (PyVal.str s) = false := by simp [headIs, hsd, hcG]
          simp only [deriveNamesGo, hsd]
          rw [if_neg (show ¬(c = 'W' ∧ w ∉ wn) by simp [hcW]),
            if_neg (show ¬(c = 'G' ∧ w ∉ gn) by simp [hcG])]
          rw [ih wn gn _ hrest]
          simp at hvstep
          simp [List.filterMap_cons, List.map_cons, hW, hG, hvstep]

/-! ## The claims -/

/-- C1: for every dataset and every resolvable (keyword, identifier) pair,
the vector extracted in eager mode (column `i` of the materialised table)
equals, element for element and with the same sign multiplier, the vector
extracted in on-demand mode (per-section sparse read at column `i`). -/
theorem C1_mode_equivalence (meta : SummaryMeta) (secs : List USec)
    (keyword identifier : String) (i : Nat) (sign : Int)
    (hwf : ∀ s ∈ secs, WFsec s)
    (hres : vectorIndex meta keyword identifier = .ok (i, sign))
    (hcol : ∀ s ∈ secs, s.name = .params → i + 1 ≤ s.count) :
    vector ⟨meta, false, dfparamsOf (encodeUnsmry secs), encodeUnsmry secs⟩ keyword identifier
      = vector ⟨meta, true, dfparamsOf (encodeUnsmry secs), encodeUnsmry secs⟩
          keyword identifier := by
  have hdf : dfparamsOf (encodeUnsmry secs) = rowsOf .params secs := by
    rw [dfparamsOf, read_unsmry_encode secs hwf]
  have hcols : ∀ r : List PyVal, r.get? i = ((r[i]?).toList).head? := by
    intro r
    rw [List.get?_eq_getElem?]
    cases r[i]? <;> rfl
  simp only [vector, hres, hdf, vectorScan_encode secs i hwf hcol]
  simp only [List.map_map, Function.comp, hcols]
  simp

/-- C1 witness: both modes agree on `WOPR` of well `P1` over the example
data file. -/
theorem C1_witness :
    vector ⟨exampleMeta, false, dfparamsOf (encodeUnsmry exampleSecs), encodeUnsmry exampleSecs⟩
        "WOPR" "P1"
      = vector ⟨exampleMeta, true, dfparamsOf (encodeUnsmry exampleSecs),
          encodeUnsmry exampleSecs⟩ "WOPR" "P1" :=
  C1_mode_equivalence exampleMeta exampleSecs "WOPR" "P1" 1 1 (by decide) rfl (by decide)

/-- C2: construction with eager mode selected does not build the table: line
65 writes `self.____read_unsmry` (four underscores), which name-mangles to
`_SummaryData____read_unsmry` — not an attribute of the class, whose
dictionary holds `__read_unsmry` under `_SummaryData__read_unsmry` — so
`__init__` raises `AttributeError` for every dataset. -/
theorem C2_eager_construction_attribute_error (meta : SummaryMeta) (data : List Nat) :
    initAfterSpec meta data false
        = some (.error (.attributeError "_SummaryData____read_unsmry")) ∧
      pyMangle "SummaryData" "__read_unsmry" ∈ summaryDataClassDict :=
  ⟨rfl, by decide⟩

/-- C3 counterexample: with only two bytes ahead, `__read_integers` does not
fail — `int.from_bytes` of the short read is returned as a value. -/
theorem C3_counterexample :
    read_integers ⟨[1, 2], 0⟩ 4 = ([258], ⟨[1, 2], 2⟩) := rfl

/-- C3 (amended): on a short stream the `struct.unpack`-based decoders
(`REAL`, `DOUB`) do fail with a truncation error, but the
`int.from_bytes`-based decoders (`INTE`, `LOGI`) silently decode whatever
bytes remain and return a value. -/
theorem C3_truncation_amended (c : Cursor) (h : c.cur.length < 4) :
    read_reals c 4 = .error .truncated ∧
    read_doubles c 8 = .error .truncated ∧
    read_integers c 4 = ([beNat c.cur], ⟨c.data, c.pos + c.cur.length⟩) ∧
    read_logis c 4 = ([decide (beNat c.cur > 0)], ⟨c.data, c.pos + c.cur.length⟩) := by
  have htake4 : c.cur.take 4 = c.cur := List.take_of_length_le (by omega)
  have htake8 : c.cur.take 8 = c.cur := List.take_of_length_le (by omega)
  refine ⟨?_, ?_, ?_, ?_⟩
  · show readRealsGo 1 c = .error .truncated
    simp only [readRealsGo, Cursor.readB, htake4]
    rw [if_neg (by omega)]
  · show readDoublesGo 1 c = .error .truncated
    simp only [readDoublesGo, Cursor.readB, htake8]
    rw [if_neg (by omega)]
  · show readIntegersGo 1 c = ([beNat c.cur], ⟨c.data, c.pos + c.cur.length⟩)
    simp [readIntegersGo, Cursor.readB, htake4]
  · show readLogisGo 1 c = ([decide (beNat c.cur > 0)], ⟨c.data, c.pos + c.cur.length⟩)
    simp [readLogisGo, Cursor.readB, htake4]

/-- C3 witness: the amended statement at the concrete two-byte stream
`[1, 2]`. -/
theorem C3_witness :
    read_reals ⟨[1, 2], 0⟩ 4 = .error .truncated ∧
    read_doubles ⟨[1, 2], 0⟩ 8 = .error .truncated ∧
    read_integers ⟨[1, 2], 0⟩ 4
      = ([beNat (Cursor.cur ⟨[1, 2], 0⟩)], ⟨[1, 2], 0 + (Cursor.cur ⟨[1, 2], 0⟩).length⟩) ∧
    read_logis ⟨[1, 2], 0⟩ 4
      = ([decide (beNat (Cursor.cur ⟨[1, 2], 0⟩) > 0)],
          ⟨[1, 2], 0 + (Cursor.cur ⟨[1, 2], 0⟩).length⟩) :=
  C3_truncation_amended ⟨[1, 2], 0⟩ (by decide)

/-- C4: the `DOUB` decoder appends `struct.unpack` itself, so each decoded
element is the wrapped 1-tuple around the little-endian 64-bit pattern
(`0x0807060504030201` for bytes `1..8`), while the `REAL` decoder takes the
`[0]` element and yields the scalar big-endian pattern — the `DOUB` result is
not the scalar kind of value the spec describes. -/
theorem C4_doub_tuple_wrapped :
    readBlock "DOUB" ⟨[1, 2, 3, 4, 5, 6, 7, 8], 0⟩ 8
        = .ok ([.doubTup [578437695752307201]], ⟨[1, 2, 3, 4, 5, 6, 7, 8], 8⟩) ∧
      readBlock "REAL" ⟨[1, 2, 3, 4], 0⟩ 4
        = .ok ([.real 16909060], ⟨[1, 2, 3, 4], 4⟩) :=
  ⟨rfl, rfl⟩

/-- C5: for a region-to-region flow keyword (`R` first, `F` third) with
identifier `"r1 r2"`, the locator first probes region code
`r1 + 32768 * (r2 + 10)` with sign `+1`, falls back to
`r2 + 32768 * (r1 + 10)` with sign `-1`, and fails with `VectorNotFound` when
neither matches. -/
theorem C5_region_flow (sd : SummaryMeta) (keyword identifier s1 s2 : String)
    (r1 r2 : Int) (ctail : List Char)
    (hns : keyword ∉ special_keywords)
    (hk : keyword.data = 'R' :: ctail)
    (hF : ctail.get? 1 = some 'F')
    (hid : pySplit identifier = [s1, s2])
    (h1 : pyInt s1 = .ok r1) (h2 : pyInt s2 = .ok r2) :
    vectorIndex sd keyword identifier =
      match pyIndex (sd.keywords_section.zip sd.nums_section)
          (.str keyword, .int (r1 + 32768 * (r2 + 10))) with
      | some idx => .ok (idx, 1)
      | none =>
        match pyIndex (sd.keywords_section.zip sd.nums_section)
            (.str keyword, .int (r2 + 32768 * (r1 + 10))) with
        | some idx => .ok (idx, -1)
        | none => .error (.vectorNotFound identifier (r1 + 32768 * (r2 + 10))
            (r2 + 32768 * (r1 + 10))) := by
  have htake : ('R' :: ctail).take 2 = 'R' :: ctail.take 1 := rfl
  unfold vectorIndex
  rw [if_neg hns]
  simp only [hk, htake]
  rw [if_neg (show ¬('R' = 'A') by decide), if_neg (show ¬('R' = 'B') by decide),
    if_neg (show ¬('R' = 'C') by decide), if_neg (show ¬('R' = 'E') by decide),
    if_neg (show ¬('R' = 'F') by decide), if_neg (show ¬('R' = 'G') by decide),
    if_neg (show ¬('R' :: ctail.take 1 = ['L', 'B']) by simp),
    if_neg (show ¬('R' :: ctail.take 1 = ['L', 'C']) by simp),
    if_neg (show ¬('R' :: ctail.take 1 = ['L', 'W']) by simp),
    if_neg (show ¬('R' = 'N') by decide), if_neg (show ¬('R' = 'P') by decide)]
  rw [if_pos (show True from trivial)]
  unfold vectorIndexR
  simp only [hF]
  rw [if_pos (show True from trivial)]
  simp only [hid, h1, h2]

/-- C5 witness: `RWFT` with identifier `"3 7"` over metadata holding only the
fallback code `7 + 32768 * 13` resolves to column 0 with sign `-1`. -/
theorem C5_witness :
    vectorIndex ⟨[.str "RWFT"], [.str ""], [.int (7 + 32768 * 13)], .int 1, .int 1⟩
        "RWFT" "3 7" = .ok (0, -1) :=
  (C5_region_flow ⟨[.str "RWFT"], [.str ""], [.int (7 + 32768 * 13)], .int 1, .int 1⟩
    "RWFT" "3 7" "3" "7" 3 7 ['W', 'F', 'T'] (by decide) rfl rfl rfl rfl rfl).trans rfl

/-- C6 counterexample: the skip condition is `target > i + capacity`, not
`>=`.  With one 1-element block and target index 1 (outside every block) the
reader decodes the trailing frame marker and returns it as a non-empty result
(`.int 4`, one decode); with a second block holding `9`, the boundary decode
happens and a second decode overwrites it (two decodes in one scan). -/
theorem C6_counterexample :
    read_record_on_demand ⟨[0, 0, 0, 4, 0, 0, 0, 7, 0, 0, 0, 4], 0⟩ 1 1 "INTE"
        = some (.ok ([.int 4], ⟨[0, 0, 0, 4, 0, 0, 0, 7, 0, 0, 0, 4], 12⟩, 1)) ∧
      read_record_on_demand
          ⟨[0, 0, 0, 4, 0, 0, 0, 7, 0, 0, 0, 4, 0, 0, 0, 4, 0, 0, 0, 9, 0, 0, 0, 4], 0⟩
          1 2 "INTE"
        = some (.ok ([.int 9],
            ⟨[0, 0, 0, 4, 0, 0, 0, 7, 0, 0, 0, 4, 0, 0, 0, 4, 0, 0, 0, 9, 0, 0, 0, 4], 24⟩,
            2)) :=
  ⟨rfl, rfl⟩

/-- C6 (amended): over a well-formed section the sparse reader returns the
singleton holding element `idx` whenever `idx` lies inside the declared
count, and an empty result (with no decode at all) whenever `idx` lies at
least one past the last element boundary (`count + 1 ≤ idx`); in both cases
the cursor ends just past the section.  (At `idx = count` exactly, the
boundary defect of the counterexample applies instead.) -/
theorem C6_sparse_read (c : Cursor) (idx count : Nat) (rt : String) (hrt : rt ∈ numTypes)
    (bs : List (List Nat)) (post : List Nat)
    (hwf : ∀ b ∈ bs, WFblock (typeLength rt) b)
    (hcur : c.cur = encodeBlocks bs ++ post)
    (hcount : sumCaps (typeLength rt) bs = count) :
    (idx + 1 ≤ count →
      ∃ v d2, (decodeBlocksList rt bs)[idx]? = some v ∧
        read_record_on_demand c idx count rt
          = some (.ok ([v], c.adv (encodeBlocks bs).length, d2))) ∧
    (count + 1 ≤ idx →
      read_record_on_demand c idx count rt
        = some (.ok ([], c.adv (encodeBlocks bs).length, 0))) :=
  ⟨fun h => read_record_on_demand_found c idx count rt hrt bs post hwf hcur hcount h,
   fun h => read_record_on_demand_miss c idx count rt bs post hwf hcur hcount h⟩

/-- C6 witness: index 0 of a 2-element `INTE` section is found as a singleton
with the cursor past the section. -/
theorem C6_witness :
    ∃ v d2, (decodeBlocksList "INTE" [[0, 0, 0, 5, 0, 0, 0, 7]])[0]? = some v ∧
      read_record_on_demand ⟨encodeBlocks [[0, 0, 0, 5, 0, 0, 0, 7]] ++ [37], 0⟩ 0 2 "INTE"
        = some (.ok ([v],
            Cursor.adv ⟨encodeBlocks [[0, 0, 0, 5, 0, 0, 0, 7]] ++ [37], 0⟩
              (encodeBlocks [[0, 0, 0, 5, 0, 0, 0, 7]]).length, d2)) :=
  (C6_sparse_read ⟨encodeBlocks [[0, 0, 0, 5, 0, 0, 0, 7]] ++ [37], 0⟩ 0 2 "INTE" (by decide)
    [[0, 0, 0, 5, 0, 0, 0, 7]] [37] (by decide) rfl rfl).1 (by decide)

/-- C7 counterexample: a header laid out as three independently framed fields
(name frame, count frame, tag frame) is not accepted — the reader parses it
as one frame and fails with a frame-marker mismatch. -/
theorem C7_counterexample :
    read_block_header
        ⟨(be4 8 ++ strBytes "PARAMS  " ++ be4 8) ++ (be4 4 ++ be4 5 ++ be4 4) ++
          (be4 4 ++ strBytes "INTE" ++ be4 4), 0⟩
      = .error (.frameMismatch 8 5) := rfl

/-- C7 (amended): the section header is one 16-byte frame — a single leading
length marker, then the 8-byte name, the 32-bit count and the 4-byte tag back
to back, then a single trailing marker that must match the leading one. -/
theorem C7_single_frame (c : Cursor) (L cnt L2 : Nat) (name8 tag4 post : List Nat)
    (h8 : name8.length = 8) (h4 : tag4.length = 4)
    (hL : L < 4294967296) (hcnt : cnt < 4294967296) (hL2 : L2 < 4294967296)
    (hcur : c.cur = be4 L ++ (name8 ++ (be4 cnt ++ (tag4 ++ (be4 L2 ++ post))))) :
    read_block_header c =
      if L = L2 then .ok ((pyStrip (l2S name8), cnt, l2S tag4), c.adv 24)
      else .error (.frameMismatch L L2) :=
  read_block_header_frame c L cnt L2 name8 tag4 post h8 h4 hL hcnt hL2 hcur

/-- C7 witness: a concrete single-frame `PARAMS` header parses to its three
fields with the cursor advanced 24 bytes. -/
theorem C7_witness :
    read_block_header
        ⟨be4 16 ++ (strBytes "PARAMS  " ++ (be4 3 ++ (strBytes "INTE" ++ (be4 16 ++ [99])))), 0⟩
      = .ok (("PARAMS", 3, "INTE"),
          ⟨be4 16 ++ (strBytes "PARAMS  " ++ (be4 3 ++ (strBytes "INTE" ++ (be4 16 ++ [99])))),
            24⟩) :=
  (C7_single_frame
    ⟨be4 16 ++ (strBytes "PARAMS  " ++ (be4 3 ++ (strBytes "INTE" ++ (be4 16 ++ [99])))), 0⟩
    16 3 16 (strBytes "PARAMS  ") (strBytes "INTE") [99] rfl rfl (by decide) (by decide)
    (by decide) rfl).trans rfl

/-- C8: the `S`-keyword locator splits `"wellname segment#"` but does not
convert the segment number with `int()`: the probe's third component is the
string `"2"`, which never equals the integer `NUMS` entries, so a vector
whose metadata triple matches (`SOFR`, `W1`, segment 2) is not found — the
lookup raises instead of resolving the column. -/
theorem C8_segment_string_probe :
    vectorIndex ⟨[.str "SOFR"], [.str "W1"], [.int 2], .int 1, .int 1⟩ "SOFR" "W1 2"
        = .error .valueError ∧
      pyIndex (zip3 [PyVal.str "SOFR"] [PyVal.str "W1"] [PyVal.int 2])
          (.str "SOFR", .str "W1", .int 2) = some 0 :=
  ⟨rfl, rfl⟩

/-- C9: after the specification stream is read, `well_names` collects the
entity names paired with `W`-keywords, `group_names` those with
`G`-keywords, and `vector_names` all keywords — each in order of first
appearance, deduplicated, with empty strings removed afterwards. -/
theorem C9_name_derivation (keywords wgnames : List PyVal)
    (hstr : ∀ p ∈ keywords.zip wgnames, ∃ s, p.1 = PyVal.str s ∧ s ≠ "") :
    derive_names keywords wgnames = .ok
      ((dedupFirst ((keywords.zip wgnames).filterMap
          (fun p => if headIs 'W' p.1 then some p.2 else none))).filter
            (fun x => x ≠ .str ""),
       (dedupFirst ((keywords.zip wgnames).filterMap
          (fun p => if headIs 'G' p.1 then some p.2 else none))).filter
            (fun x => x ≠ .str ""),
       (dedupFirst ((keywords.zip wgnames).map Prod.fst)).filter
            (fun x => x ≠ .str "")) := by
  rw [derive_names, deriveNamesGo_spec (keywords.zip wgnames) [] [] [] hstr]
  simp

/-- C9 witness: the spec's example — keywords `WOPR, WOPR, GOPR, TIME` with
entity names `P1, P1, G1, ""` yield exactly `well_names = [P1]`,
`group_names = [G1]`, `vector_names = [WOPR, GOPR, TIME]`. -/
theorem C9_witness :
    derive_names [PyVal.str "WOPR", .str "WOPR", .str "GOPR", .str "TIME"]
        [PyVal.str "P1", .str "P1", .str "G1", .str ""]
      = .ok ([.str "P1"], [.str "G1"], [.str "WOPR", .str "GOPR", .str "TIME"]) :=
  (C9_name_derivation [PyVal.str "WOPR", .str "WOPR", .str "GOPR", .str "TIME"]
    [PyVal.str "P1", .str "P1", .str "G1", .str ""]
    (by intro p hp; fin_cases hp <;> exact ⟨_, rfl, by decide⟩)).trans rfl

/-- C10: the full reader's loop terminates whenever every framed block ahead
holds at least one element of the declared type (the well-formedness bound
`typeLength rt ≤ b.length`), because the running element index strictly
increases past the declared count; and one iteration over a zero-length
framed block leaves the element index exactly where it was, so such a block
with elements still expected never advances the loop. -/
theorem C10_full_reader_termination (count : Nat) (rt : String) (hrt : rt ∈ numTypes)
    (bs : List (List Nat)) (post : List Nat) (c : Cursor)
    (hwf : ∀ b ∈ bs, WFblock (typeLength rt) b)
    (hcur : c.cur = encodeBlocks bs ++ post)
    (hcount : count ≤ sumCaps (typeLength rt) bs) :
    (∃ vals c2, read_record c count rt = some (.ok (vals, c2))) ∧
    (∀ (fuel : Nat) (c0 : Cursor) (i : Nat) (acc : List PyVal) (rest : List Nat),
      i ≤ count → c0.cur = encodeBlock [] ++ rest →
      readRecordGo (fuel + 1) c0 i count rt acc
        = readRecordGo fuel (c0.adv 8) i count rt acc) := by
  constructor
  · obtain ⟨vals, c2, h⟩ := readRecordGo_partial count rt hrt bs (c.cur.length + 1) c 1 [] post
      hwf hcur (by omega)
      (by rw [hcur, List.length_append]; have := encodeBlocks_length_ge bs; omega)
    exact ⟨vals, c2, h⟩
  · intro fuel c0 i acc rest hi hc0
    have hd : decodeBlockP rt [] = [] := by
      simp [decodeBlockP, chunks, Nat.zero_div, chunksGo]
    have h := readRecordGo_step fuel c0 i count rt hrt acc [] rest (by decide) hc0
      (dvd_zero _) hi
    simpa [hd, Nat.zero_div] using h

/-- C10 witness: the full read of a 2-element `INTE` section terminates with
a value. -/
theorem C10_witness :
    ∃ vals c2, read_record ⟨encodeBlocks [[0, 0, 0, 5, 0, 0, 0, 7]] ++ [37], 0⟩ 2 "INTE"
      = some (.ok (vals, c2)) :=
  (C10_full_reader_termination 2 "INTE" (by decide) [[0, 0, 0, 5, 0, 0, 0, 7]] [37]
    ⟨encodeBlocks [[0, 0, 0, 5, 0, 0, 0, 7]] ++ [37], 0⟩ (by decide) rfl (by decide)).1

end UnsmryReader
